import Mathlib

/-!
# kafka-schema: versioned aliases and the local schema repository

A shallow embedding of `pkg/version.go`, `pkg/observables.go` and
`pkg/localrepo.go` of `strangedev/kafka-schema`, with the properties of the
versioned alias scheme and the local materialised view proved over it.

Conventions of the embedding:

* a Go `string` is the list of its runes (`GoString`); the text is taken to be
  valid UTF-8, on which `strings.Split` with an ASCII separator and the `%s`
  verb act rune by rune exactly as they act byte by byte;
* a Go `uint` is a natural number below `2 ^ bits`, where `bits` is the word
  size of the platform (`strconv.IntSize`, 32 or 64); functions whose result
  depends on the word size take `bits` as their first argument;
* a Go `error` is represented by its message, `nil` by `none`;
* the pieces of the Go standard library that `version.go` calls
  (`strings.Split`, `fmt.Sprintf`, `fmt.Sscanf`, `strconv.ParseUint`) are
  embedded from their Go sources, restricted to the format strings that
  `version.go` passes.
-/

namespace KafkaSchema

/-- Runes of a Go string. -/
abbrev GoString := List Char

/-- Message of a Go `error` value. -/
abbrev GoError := String

/-! ## `strings.Split` -/

/-- Go `strings.Index(s, substr)`: the position of the first occurrence of
`substr` in `s`, `none` standing for `-1`. -/
def Index : GoString → GoString → Option Nat
  | [], substr => if substr = [] then some 0 else none
  | c :: cs, substr =>
    if substr.isPrefixOf (c :: cs) then some 0
    else (Index cs substr).map (· + 1)

/-- Loop of Go `strings.Count` for a non-empty `substr`: counts the
non-overlapping occurrences, cutting `s` after each one.  The loop runs at
most `len(s)` times, which is the bound `fuel` carries. -/
def countLoop (substr : GoString) : Nat → GoString → Nat → Nat
  | 0, _, n => n
  | fuel + 1, s, n =>
    match Index s substr with
    | none => n
    | some i => countLoop substr fuel (s.drop (i + substr.length)) (n + 1)

/-- Go `strings.Count(s, substr)`. -/
def Count (s substr : GoString) : Nat :=
  if substr = [] then s.length + 1 else countLoop substr s.length s 0

/-- Loop of Go `strings.genSplit`: `for i < n` cuts `s` at the first
occurrence of `sep`, and the remainder becomes the last element. -/
def genSplitLoop (sep : GoString) : Nat → GoString → List GoString
  | 0, s => [s]
  | n + 1, s =>
    match Index s sep with
    | none => [s]
    | some m => s.take m :: genSplitLoop sep n (s.drop (m + sep.length))

/-- Go `strings.Split(s, sep)`, that is `genSplit(s, sep, 0, -1)`. -/
def Split (s sep : GoString) : List GoString :=
  if sep = [] then s.map (fun r => [r])
  else genSplitLoop sep (min (Count s sep + 1) (s.length + 1) - 1) s

/-! ## `fmt.Sprintf` with `%x` -/

/-- Digit table `ldigits` of Go `fmt`. -/
def ldigits : GoString := "0123456789abcdefx".toList

/-- Hexadecimal branch of Go `fmt.fmtInteger`: digits are produced right to
left into `buf` while `u >= 16`, then the leading digit is written.  A
`uint64` leaves the loop after at most 15 rounds; `fuel` is that bound. -/
def fmtIntegerHex : Nat → Nat → GoString → GoString
  | 0, u, buf => ldigits.getD u '0' :: buf
  | fuel + 1, u, buf =>
    if u ≥ 16 then fmtIntegerHex fuel (u >>> 4) (ldigits.getD (u &&& 0xF) '0' :: buf)
    else ldigits.getD u '0' :: buf

/-- Go `fmt.Sprintf("%x", u)` for an unsigned integer. -/
def sprintHex (u : Nat) : GoString := fmtIntegerHex 15 u []

/-! ## `fmt.Sscanf` with `%x` -/

/-- Go `fmt.hugeWid`, the limit on the number of runes a scan consumes. -/
def hugeWid : Nat := 1 <<< 30

/-- Scan state `fmt.ss`: the unread runes and the count of consumed ones. -/
structure ss where
  rs : GoString
  count : Nat
deriving DecidableEq, Repr

/-- Go `fmt.isSpace`. -/
def isSpace (r : Char) : Bool :=
  let x := r.toNat
  (0x0009 ≤ x && x ≤ 0x000d) || x == 0x0020 || x == 0x0085 || x == 0x00a0 ||
  x == 0x1680 || (0x2000 ≤ x && x ≤ 0x200a) || (0x2028 ≤ x && x ≤ 0x2029) ||
  x == 0x202f || x == 0x205f || x == 0x3000

/-- Go `ss.peek("\n")` right after a rune was read: is the next rune a
newline (false at end of input or at the rune limit). -/
def peekNewline (rs : GoString) (count : Nat) : Bool :=
  if count ≥ hugeWid then false
  else match rs with
    | [] => false
    | r :: _ => r == '\n'

/-- Go `ss.SkipSpace` for `Sscanf` (`nlIsSpace = false`): skips spaces, fails
on a newline, stops at end of input or at the rune limit. -/
def SkipSpace : GoString → Nat → Except GoError ss
  | [], count => .ok ⟨[], count⟩
  | r :: rest, count =>
    if count ≥ hugeWid then .ok ⟨r :: rest, count⟩
    else if r == '\r' && peekNewline rest (count + 1) then SkipSpace rest (count + 1)
    else if r == '\n' then .error "unexpected newline"
    else if !isSpace r then .ok ⟨r :: rest, count⟩
    else SkipSpace rest (count + 1)

/-- Go `ss.notEOF`: fails with `io.EOF` when no rune can be read. -/
def notEOF (s : ss) : Except GoError Unit :=
  if s.count ≥ hugeWid then .error "EOF"
  else match s.rs with
    | [] => .error "EOF"
    | _ :: _ => .ok ()

/-- Digit set `hexadecimalDigits` of Go `fmt`. -/
def hexadecimalDigits : GoString := "0123456789aAbBcCdDeEfF".toList

/-- Loop `for s.accept(digits) {}` of Go `ss.scanNumber`: appends accepted
runes to the token buffer and stops at the first rune that is not a digit. -/
def acceptLoop (digits : GoString) : GoString → Nat → GoString → GoString × ss
  | [], count, buf => (buf, ⟨[], count⟩)
  | r :: rest, count, buf =>
    if count ≥ hugeWid then (buf, ⟨r :: rest, count⟩)
    else if r ∈ digits then acceptLoop digits rest (count + 1) (buf ++ [r])
    else (buf, ⟨r :: rest, count⟩)

/-- Go `ss.scanNumber(digits, false)`: at least one digit is required. -/
def scanNumber (digits : GoString) (s : ss) : Except GoError (GoString × ss) :=
  match notEOF s with
  | .error e => .error e
  | .ok () =>
    match s.rs with
    | [] => .error "EOF"
    | r :: rest =>
      if r ∈ digits then .ok (acceptLoop digits rest (s.count + 1) [r])
      else .error "expected integer"

/-- Digit value computed in the loop of Go `strconv.ParseUint`. -/
def digitVal (c : Char) : Option Nat :=
  let x := c.toNat
  if 48 ≤ x ∧ x ≤ 57 then some (x - 48)
  else
    let l := x ||| 32
    if 97 ≤ l ∧ l ≤ 122 ∧ x < 128 then some (l - 97 + 10) else none

/-- Message of the `strconv.NumError` for `ErrRange`. -/
def rangeError (tok : GoString) : GoError :=
  "strconv.ParseUint: parsing \"" ++ String.mk tok ++ "\": value out of range"

/-- Message of the `strconv.NumError` for `ErrSyntax`. -/
def syntaxError (tok : GoString) : GoError :=
  "strconv.ParseUint: parsing \"" ++ String.mk tok ++ "\": invalid syntax"

/-- Loop of Go `strconv.ParseUint(s0, 16, 64)` over the remaining digits, `n`
being the value accumulated so far. -/
def parseUintLoop (s0 : GoString) : GoString → Nat → Except GoError Nat
  | [], n => .ok n
  | c :: cs, n =>
    match digitVal c with
    | none => .error (syntaxError s0)
    | some d =>
      if d ≥ 16 then .error (syntaxError s0)
      else if n ≥ (2 ^ 64 - 1) / 16 + 1 then .error (rangeError s0)
      else
        let n0 := (n * 16) % 2 ^ 64
        let n1 := (n0 + d) % 2 ^ 64
        if n1 < n0 ∨ n1 > 2 ^ 64 - 1 then .error (rangeError s0)
        else parseUintLoop s0 cs n1

/-- Go `strconv.ParseUint(s, 16, 64)`. -/
def ParseUint16 (s : GoString) : Except GoError Nat :=
  if s = [] then .error (syntaxError s) else parseUintLoop s s 0

/-- Go `ss.scanUint('x', bitSize)`. -/
def scanUint (bitSize : Nat) (s : ss) : Except GoError (Nat × ss) :=
  match SkipSpace s.rs s.count with
  | .error e => .error e
  | .ok s1 =>
    match notEOF s1 with
    | .error e => .error e
    | .ok () =>
      match scanNumber hexadecimalDigits s1 with
      | .error e => .error e
      | .ok (tok, s2) =>
        match ParseUint16 tok with
        | .error e => .error e
        | .ok i =>
          let x := ((i <<< (64 - bitSize)) % 2 ^ 64) >>> (64 - bitSize)
          if x ≠ i then
            .error ("unsigned integer overflow on token " ++ String.mk tok)
          else .ok (x, s2)

/-- Go `fmt.Sscanf(str, "%x", &v)` for `v` of type `uint`: returns the number
of items scanned, the value `v` holds afterwards, and the error.  The format
ends after the verb, so whatever follows the number in `str` is not read. -/
def SscanfHex (bits : Nat) (str : GoString) (v : Nat) : Nat × Nat × Option GoError :=
  match SkipSpace str 0 with
  | .error e => (0, v, some e)
  | .ok s0 =>
    match scanUint bits s0 with
    | .error e => (0, v, some e)
    | .ok (x, _) => (1, x, none)

/-! ## `pkg/version.go` -/

/-- A plain text addressable thing that is linearly versioned. -/
structure NameVersion where
  Name : GoString
  Version : Nat
deriving DecidableEq, Repr

/-- An alias is a plain text name for a schema (`type Alias string`). -/
abbrev Alias := GoString

/-- Go `NameVersion.String`: `fmt.Sprintf("%s-v%x", v.Name, v.Version)`. -/
def NameVersion.String (v : NameVersion) : GoString :=
  v.Name ++ "-v".toList ++ sprintHex v.Version

/-- Go `NameVersion.Alias`: `Alias(v.String())`. -/
def NameVersion.Alias (v : NameVersion) : Alias := v.String

/-- Go `VersionFromString`: the format is `{NAME}-v{VERSION}`. -/
def VersionFromString (bits : Nat) (s : GoString) : NameVersion × Option GoError :=
  let version : NameVersion := ⟨[], 0⟩
  match Split s "-v".toList with
  | [p0, p1] =>
    let version := { version with Name := p0 }
    match SscanfHex bits p1 version.Version with
    | (_, x, err) => ({ version with Version := x }, err)
  | _ => (version, some "invalid format")

/-- Go `VersionFromAlias`. -/
def VersionFromAlias (bits : Nat) (a : Alias) : NameVersion × Option GoError :=
  VersionFromString bits a

/-- Go `NameVersion.IsOrigin`. -/
def NameVersion.IsOrigin (v : NameVersion) : Bool := v.Version == 0

/-- Go `NameVersion.GetVersion`. -/
def NameVersion.GetVersion (v : NameVersion) : Nat := v.Version

/-- Go `NameVersion.GetName`. -/
def NameVersion.GetName (v : NameVersion) : GoString := v.Name

/-- Go `NewVersionOrigin`. -/
def NewVersionOrigin (name : GoString) : NameVersion := ⟨name, 0⟩

/-- Go `NameVersion.GetPrevious`: the origin is returned unchanged with a false
flag; the subtraction is the one of a `uint` of `bits` bits. -/
def NameVersion.GetPrevious (bits : Nat) (v : NameVersion) : NameVersion × Bool :=
  if v.Version == 0 then (v, false)
  else
    let previousVersion := (v.Version + 2 ^ bits - 1) % 2 ^ bits
    (⟨v.Name, previousVersion⟩, true)

/-- Go `NameVersion.GetNext`: the addition is the one of a `uint` of `bits`
bits. -/
def NameVersion.GetNext (bits : Nat) (v : NameVersion) : NameVersion × Bool :=
  let previousVersion := (v.Version + 1) % 2 ^ bits
  (⟨v.Name, previousVersion⟩, true)

/-! ## `pkg/observables.go`

The embedded `catchall.ConcurrentObservable` (the lock and the registry of
observers) belongs to another package and holds no map data; `Lock`, `Unlock`
and `Notify` neither read nor write `Map`, so the embedding of `Insert`
and `Upsert` keeps the map accesses between them and the returned flag. -/

/-- A Go `map[K]V`: a finite table with at most one entry per key. -/
structure GoMap (K V : Type) where
  entries : List (K × V)

/-- The empty map, Go `make(map[K]V)`. -/
def GoMap.empty {K V : Type} : GoMap K V := ⟨[]⟩

/-- Read `m[k]`: the value stored under `k`, if any. -/
def GoMap.find {K V : Type} [DecidableEq K] (m : GoMap K V) (k : K) : Option V :=
  (m.entries.find? (fun e => decide (e.1 = k))).map (fun e => e.2)

/-- The comma-ok read `v, ok := m[k]`, with `zero` the zero value of `V`. -/
def GoMap.commaOk {K V : Type} [DecidableEq K] (m : GoMap K V) (k : K) (zero : V) : V × Bool :=
  match m.find k with
  | some v => (v, true)
  | none => (zero, false)

/-- The assignment `m[k] = v`. -/
def GoMap.store {K V : Type} [DecidableEq K] (m : GoMap K V) (k : K) (v : V) : GoMap K V :=
  ⟨(k, v) :: m.entries.filter (fun e => decide (e.1 ≠ k))⟩

/-- Go `len(m)`. -/
def GoMap.len {K V : Type} (m : GoMap K V) : Nat := m.entries.length

/-- Keys of the map, as `for k := range m` visits them (in some order). -/
def GoMap.keys {K V : Type} (m : GoMap K V) : List K := m.entries.map (fun e => e.1)

/-- A schema identifier `uuid.UUID`: sixteen bytes, read as one number.  Only
equality and the zero value `uuid.Nil` are used. -/
abbrev UUID := Nat

/-- Map of aliases to UUIDs (`AliasMap.Map`). -/
structure AliasMap where
  Map : GoMap Alias UUID

/-- Map of UUIDs to Avro codecs (`SchemaMap.Map`). -/
structure SchemaMap (Codec : Type) where
  Map : GoMap UUID Codec

/-- Go `AliasMap.Insert`: inserts or updates an alias, and returns true if the
entry did already exist and was overwritten. -/
def AliasMap.Insert (m : AliasMap) (name : Alias) (schemaUUID : UUID) : Bool × AliasMap :=
  let overwritten := (m.Map.find name).isSome
  let m1 : AliasMap := { m with Map := m.Map.store name schemaUUID }
  (overwritten, m1)

/-- Go `NewAliasMap`. -/
def NewAliasMap : AliasMap := ⟨GoMap.empty⟩

/-- Go `SchemaMap.Upsert`: inserts or updates a codec, and returns true if the
entry did already exist and was overwritten. -/
def SchemaMap.Upsert {Codec : Type} (m : SchemaMap Codec) (schemaUUID : UUID) (codec : Codec) :
    Bool × SchemaMap Codec :=
  let overwritten := (m.Map.find schemaUUID).isSome
  let m1 : SchemaMap Codec := { m with Map := m.Map.store schemaUUID codec }
  (overwritten, m1)

/-- Go `NewSchemaMap`. -/
def NewSchemaMap {Codec : Type} : SchemaMap Codec := ⟨GoMap.empty⟩

/-! ## `pkg/dto.go` and the libraries behind `pkg/localrepo.go` -/

/-- A Go `[]byte`; `none` is the nil slice. -/
abbrev ByteSlice := Option (List Nat)

/-- Go `UpdateRequest`: sets the given UUID to equal the given Avro spec. -/
structure UpdateRequest where
  UUID : UUID
  Spec : GoString
deriving DecidableEq, Repr

/-- Go `AliasRequest`: sets the given alias to equal the given UUID. -/
structure AliasRequest where
  UUID : UUID
  Alias : GoString
deriving DecidableEq, Repr

/-- The part of `kafka.Message` the handlers read. -/
structure Message where
  Value : ByteSlice
deriving DecidableEq, Repr

/-- The library functions `localrepo.go` calls, taken as given: the Avro
codec of `goavro` over an arbitrary type `Native` of decoded values (`none`
being the nil interface value), and `json.Unmarshal` at the two request
types. -/
structure Deps (Codec Native : Type) where
  NewCodec : GoString → Except GoError Codec
  Schema : Codec → GoString
  NativeFromBinary : Codec → ByteSlice → Option Native × ByteSlice × Option GoError
  BinaryFromNative : Codec → ByteSlice → Option Native → ByteSlice × Option GoError
  UnmarshalUpdateRequest : ByteSlice → Except GoError UpdateRequest
  UnmarshalAliasRequest : ByteSlice → Except GoError AliasRequest

/-! ## `pkg/localrepo.go`

Every method takes the state of the repository and returns its results
together with the state it leaves. -/

/-- Go `LocalRepo`: the two maps (the embedded `core.TopicRouter` only
dispatches records to the handlers). -/
structure LocalRepo (Codec : Type) where
  Schemata : SchemaMap Codec
  Aliases : AliasMap

/-- The maps of a repository fresh from `NewLocalRepo`. -/
def LocalRepo.new {Codec : Type} : LocalRepo Codec := ⟨NewSchemaMap, NewAliasMap⟩

/-- Go `LocalRepo.Decode`. -/
def LocalRepo.Decode {Codec Native : Type} (deps : Deps Codec Native) (repo : LocalRepo Codec)
    (schema : UUID) (datum : ByteSlice) : (Option Native × Option GoError) × LocalRepo Codec :=
  match repo.Schemata.Map.find schema with
  | none => ((none, some "schema not present"), repo)
  | some codec =>
    match deps.NativeFromBinary codec datum with
    | (native, _, err) => ((native, err), repo)

/-- Go `LocalRepo.Encode`. -/
def LocalRepo.Encode {Codec Native : Type} (deps : Deps Codec Native) (repo : LocalRepo Codec)
    (schema : UUID) (datum : Option Native) : (ByteSlice × Option GoError) × LocalRepo Codec :=
  match repo.Schemata.Map.find schema with
  | none => ((none, some "schema not present"), repo)
  | some codec =>
    match deps.BinaryFromNative codec none datum with
    | (binary, err) => ((binary, err), repo)

/-- Go `LocalRepo.WhoIs`. -/
def LocalRepo.WhoIs {Codec : Type} (repo : LocalRepo Codec) (name : Alias) :
    (UUID × Bool) × LocalRepo Codec :=
  (repo.Aliases.Map.commaOk name 0, repo)

/-- Go `LocalRepo.GetSpecification`. -/
def LocalRepo.GetSpecification {Codec Native : Type} (deps : Deps Codec Native)
    (repo : LocalRepo Codec) (schema : UUID) : (GoString × Bool) × LocalRepo Codec :=
  match repo.Schemata.Map.find schema with
  | none => (([], false), repo)
  | some codec => ((deps.Schema codec, true), repo)

/-- Go `LocalRepo.ListSchemata`. -/
def LocalRepo.ListSchemata {Codec : Type} (repo : LocalRepo Codec) : List UUID × LocalRepo Codec :=
  (repo.Schemata.Map.keys, repo)

/-- Go `LocalRepo.ListAliases`. -/
def LocalRepo.ListAliases {Codec : Type} (repo : LocalRepo Codec) : List Alias × LocalRepo Codec :=
  (repo.Aliases.Map.keys, repo)

/-- Go `LocalRepo.Count`. -/
def LocalRepo.Count {Codec : Type} (repo : LocalRepo Codec) : Nat × LocalRepo Codec :=
  (repo.Schemata.Map.len, repo)

/-- Go `LocalRepo.handleSchemaUpdate` (the `log` calls write no state). -/
def LocalRepo.handleSchemaUpdate {Codec Native : Type} (deps : Deps Codec Native)
    (repo : LocalRepo Codec) (message : Message) : Option GoError × LocalRepo Codec :=
  match deps.UnmarshalUpdateRequest message.Value with
  | .error err => (some err, repo)
  | .ok request =>
    match deps.NewCodec request.Spec with
    | .error err => (some err, repo)
    | .ok codec =>
      (none, { repo with Schemata := (repo.Schemata.Upsert request.UUID codec).2 })

/-- Go `LocalRepo.handleAliasUpdate`. -/
def LocalRepo.handleAliasUpdate {Codec Native : Type} (deps : Deps Codec Native)
    (repo : LocalRepo Codec) (message : Message) : Option GoError × LocalRepo Codec :=
  match deps.UnmarshalAliasRequest message.Value with
  | .error err => (some err, repo)
  | .ok request =>
    (none, { repo with Aliases := (repo.Aliases.Insert request.Alias request.UUID).2 })

/-- Go `LocalRepo.DecodeVersion`. -/
def LocalRepo.DecodeVersion {Codec Native : Type} (deps : Deps Codec Native)
    (repo : LocalRepo Codec) (schema : NameVersion) (datum : ByteSlice) :
    (Option Native × Option GoError) × LocalRepo Codec :=
  match repo.WhoIs schema.Alias with
  | ((schemaUUID, ok), repo1) =>
    if !ok then repo1.Decode deps schemaUUID datum
    else ((none, some "schema not know to this repo"), repo1)

/-- Go `LocalRepo.EncodeVersion`. -/
def LocalRepo.EncodeVersion {Codec Native : Type} (deps : Deps Codec Native)
    (repo : LocalRepo Codec) (schema : NameVersion) (datum : Option Native) :
    (ByteSlice × Option GoError) × LocalRepo Codec :=
  match repo.WhoIs schema.Alias with
  | ((schemaUUID, ok), repo1) =>
    if ok then repo1.Encode deps schemaUUID datum
    else ((none, some "schema not know to this repo"), repo1)

/-- The waits of `localrepo.go` return channels.  A `Sink` records which
channel a wait has returned: one of the channels `Observe` of `catchall` hands
out for a key, the channel `ready` on which a goroutine sends `true`, or the
channel `aliasIsReady` fed by the goroutine that `WaitAliasReady` starts. -/
inductive Sink where
  | observeSchema (schema : UUID)
  | observeAlias (name : Alias)
  | ready
  | aliasIsReady (name : Alias)
deriving DecidableEq, Repr

/-- Go `LocalRepo.WaitSchemaReady`. -/
def LocalRepo.WaitSchemaReady {Codec Native : Type} (deps : Deps Codec Native)
    (repo : LocalRepo Codec) (schema : UUID) : Sink × LocalRepo Codec :=
  match repo.GetSpecification deps schema with
  | ((_, ok), repo1) =>
    if !ok then (Sink.observeSchema schema, repo1)
    else (Sink.ready, repo1)

/-- Go `LocalRepo.WaitAliasReady`: the channel it returns. -/
def LocalRepo.WaitAliasReady {Codec Native : Type} (deps : Deps Codec Native)
    (repo : LocalRepo Codec) (name : Alias) : Sink × LocalRepo Codec :=
  match repo.WhoIs name with
  | ((schemaUUID, ok), repo1) =>
    if !ok then (Sink.aliasIsReady name, repo1)
    else repo1.WaitSchemaReady deps schemaUUID

/-- Go `LocalRepo.WaitVersionReady`. -/
def LocalRepo.WaitVersionReady {Codec Native : Type} (deps : Deps Codec Native)
    (repo : LocalRepo Codec) (schema : NameVersion) : Sink × LocalRepo Codec :=
  repo.WaitAliasReady deps schema.Alias

/-- What the channels handed out by `Observe` deliver: `true` on a
notification, `false` when the wait is aborted. -/
structure Signals where
  aliasSignal : Alias → Bool
  schemaSignal : UUID → Bool

/-- The value received from a sink.  For `aliasIsReady` this is the value the
goroutine of `WaitAliasReady` sends: it receives from
`repo.Aliases.Observe(alias)`, reads `repo.Aliases.Map[alias]` in the state
`later` the maps have by then, receives from `repo.WaitSchemaReady(schemaUUID)`
and sends `true`. -/
def Sink.receive {Codec Native : Type} (deps : Deps Codec Native) (later : LocalRepo Codec)
    (sig : Signals) : Sink → Bool
  | Sink.ready => true
  | Sink.observeSchema schema => sig.schemaSignal schema
  | Sink.observeAlias name => sig.aliasSignal name
  | Sink.aliasIsReady name =>
    let _observed := sig.aliasSignal name
    let schemaUUID := (later.Aliases.Map.commaOk name 0).1
    let _schemaReady :=
      match (later.WaitSchemaReady deps schemaUUID).1 with
      | Sink.observeSchema schema => sig.schemaSignal schema
      | _ => true
    true

/-- Replay of a log of `schema_update` records: `handleSchemaUpdate` is applied
to each record in order, an erroneous record being skipped by the router. -/
def LocalRepo.replaySchemaUpdates {Codec Native : Type} (deps : Deps Codec Native)
    (repo : LocalRepo Codec) (records : List Message) : LocalRepo Codec :=
  records.foldl (fun r message => (r.handleSchemaUpdate deps message).2) repo

/-- The operations of the store: the two map writes, the two log handlers and
the read-side methods of `LocalRepo`. -/
inductive Op (Codec Native : Type) where
  | Insert (name : Alias) (schemaUUID : UUID)
  | Upsert (schemaUUID : UUID) (codec : Codec)
  | handleSchemaUpdate (message : Message)
  | handleAliasUpdate (message : Message)
  | Decode (schema : UUID) (datum : ByteSlice)
  | Encode (schema : UUID) (datum : Option Native)
  | WaitSchemaReady (schema : UUID)
  | WaitAliasReady (name : Alias)
  | ListSchemata
  | ListAliases
  | WhoIs (name : Alias)
  | GetSpecification (schema : UUID)
  | Count
  | DecodeVersion (schema : NameVersion) (datum : ByteSlice)
  | EncodeVersion (schema : NameVersion) (datum : Option Native)
  | WaitVersionReady (schema : NameVersion)

/-- The state an operation leaves. -/
def LocalRepo.apply {Codec Native : Type} (deps : Deps Codec Native) (repo : LocalRepo Codec) :
    Op Codec Native → LocalRepo Codec
  | Op.Insert name schemaUUID => { repo with Aliases := (repo.Aliases.Insert name schemaUUID).2 }
  | Op.Upsert schemaUUID codec => { repo with Schemata := (repo.Schemata.Upsert schemaUUID codec).2 }
  | Op.handleSchemaUpdate message => (repo.handleSchemaUpdate deps message).2
  | Op.handleAliasUpdate message => (repo.handleAliasUpdate deps message).2
  | Op.Decode schema datum => (repo.Decode deps schema datum).2
  | Op.Encode schema datum => (repo.Encode deps schema datum).2
  | Op.WaitSchemaReady schema => (repo.WaitSchemaReady deps schema).2
  | Op.WaitAliasReady name => (repo.WaitAliasReady deps name).2
  | Op.ListSchemata => repo.ListSchemata.2
  | Op.ListAliases => repo.ListAliases.2
  | Op.WhoIs name => (repo.WhoIs name).2
  | Op.GetSpecification schema => (repo.GetSpecification deps schema).2
  | Op.Count => repo.Count.2
  | Op.DecodeVersion schema datum => (repo.DecodeVersion deps schema datum).2
  | Op.EncodeVersion schema datum => (repo.EncodeVersion deps schema datum).2
  | Op.WaitVersionReady schema => (repo.WaitVersionReady deps schema).2

/-- The state after a sequence of operations, applied in order. -/
def LocalRepo.run {Codec Native : Type} (deps : Deps Codec Native) (repo : LocalRepo Codec)
    (ops : List (Op Codec Native)) : LocalRepo Codec :=
  ops.foldl (fun r op => r.apply deps op) repo

/-! ## Reference notions used in the statements -/

/-- The sixteen lowercase hexadecimal digits. -/
def lowerHexDigits : GoString := "0123456789abcdef".toList

/-- Lowercase hexadecimal numeral of `n`, most significant digit first, with
no prefix and no leading zeros; zero is written `0`. -/
def hexNumeral (n : Nat) : GoString :=
  if n = 0 then ['0']
  else (Nat.digits 16 n).reverse.map (fun d => lowerHexDigits.getD d '0')

/-- Value of a string of hexadecimal digits read in base sixteen. -/
def hexValue (h : GoString) : Nat :=
  h.foldl (fun n c => n * 16 + (digitVal c).getD 0) 0

/-- The codec of a `schema_update` record for `u`: present when the record
decodes to a request for `u` whose spec compiles. -/
def compiledFor {Codec Native : Type} (deps : Deps Codec Native) (u : UUID)
    (message : Message) : Option Codec :=
  match deps.UnmarshalUpdateRequest message.Value with
  | .error _ => none
  | .ok request =>
    if request.UUID = u then
      match deps.NewCodec request.Spec with
      | .error _ => none
      | .ok codec => some codec
    else none

/-- The codec compiled from the last record for `u` that decoded and whose
spec compiled, if there is such a record. -/
def lastCompiled {Codec Native : Type} (deps : Deps Codec Native) (records : List Message)
    (u : UUID) : Option Codec :=
  records.reverse.findSome? (compiledFor deps u)

/-- The strings `VersionFromString` can accept: a name without `-v`, then `-v`,
then optional spaces other than a newline, then one or more hexadecimal digits
of either case whose value fits in a `uint`, then any text; no second `-v`
occurs. -/
def LenientForm (bits : Nat) (s : GoString) : Prop :=
  ∃ name sp hex rest : GoString,
    s = name ++ "-v".toList ++ (sp ++ hex ++ rest) ∧
    ¬ "-v".toList <:+: name ∧ ¬ "-v".toList <:+: (sp ++ hex ++ rest) ∧
    (∀ c ∈ sp, isSpace c = true ∧ c ≠ '\n') ∧
    hex ≠ [] ∧ (∀ c ∈ hex, c ∈ hexadecimalDigits) ∧ hexValue hex < 2 ^ bits

/-- A sample of the library functions, for concrete runs: a spec compiles
unless it is empty, the codec being the spec itself; a record body is the
UUID followed by the code points of the text. -/
def sampleDeps : Deps GoString (List Nat) where
  NewCodec := fun spec => if spec = [] then .error "cannot unmarshal schema JSON" else .ok spec
  Schema := fun codec => codec
  NativeFromBinary := fun _ datum =>
    match datum with
    | some (b :: bs) => (some [b], some bs, none)
    | _ => (none, datum, some "short buffer")
  BinaryFromNative := fun _ buf datum =>
    match datum with
    | some n => (some (buf.getD [] ++ n), none)
    | none => (buf, some "cannot encode nil")
  UnmarshalUpdateRequest := fun value =>
    match value with
    | some (u :: text) => .ok ⟨u, text.map Char.ofNat⟩
    | _ => .error "unexpected end of JSON input"
  UnmarshalAliasRequest := fun value =>
    match value with
    | some (u :: text) => .ok ⟨u, text.map Char.ofNat⟩
    | _ => .error "unexpected end of JSON input"

/-- A repository that knows the alias `foo-v0` for UUID 7 and holds a codec
for UUID 7. -/
def sampleRepo : LocalRepo GoString :=
  ⟨⟨⟨[(7, "\"long\"".toList)]⟩⟩, ⟨⟨[("foo-v0".toList, 7)]⟩⟩⟩

/-! ## Hexadecimal printing -/

theorem ldigits_getD_eq (d : Nat) (hd : d < 16) :
    ldigits.getD d '0' = lowerHexDigits.getD d '0' := by
  interval_cases d <;> rfl

theorem hexNumeral_lt (u : Nat) (hu : u < 16) : hexNumeral u = [ldigits.getD u '0'] := by
  interval_cases u <;> simp [hexNumeral] <;> rfl

theorem hexNumeral_step (u : Nat) (hu : 16 ≤ u) :
    hexNumeral u = hexNumeral (u / 16) ++ [ldigits.getD (u % 16) '0'] := by
  have h0 : u ≠ 0 := by omega
  have h1 : u / 16 ≠ 0 := by omega
  have hd : Nat.digits 16 u = (u % 16) :: Nat.digits 16 (u / 16) :=
    Nat.digits_def' (by norm_num) (by omega)
  simp only [hexNumeral, h0, h1, if_false, hd, List.reverse_cons, List.map_append,
    List.map_cons, List.map_nil]
  rw [ldigits_getD_eq (u % 16) (Nat.mod_lt _ (by norm_num))]

theorem fmtIntegerHex_eq (fuel : Nat) : ∀ (u : Nat) (buf : GoString),
    u < 16 ^ (fuel + 1) → fmtIntegerHex fuel u buf = hexNumeral u ++ buf := by
  induction fuel with
  | zero =>
    intro u buf hu
    have hu16 : u < 16 := by simpa using hu
    simp [fmtIntegerHex, hexNumeral_lt u hu16]
  | succ k ih =>
    intro u buf hu
    by_cases h16 : 16 ≤ u
    · have hshift : u >>> 4 = u / 16 := by
        rw [Nat.shiftRight_eq_div_pow]
      have hand : u &&& 0xF = u % 16 := by
        have := Nat.and_pow_two_sub_one_eq_mod u 4
        simpa using this
      have hlt : u / 16 < 16 ^ (k + 1) := by
        rw [Nat.div_lt_iff_lt_mul (by norm_num)]
        calc u < 16 ^ (k + 1 + 1) := hu
          _ = 16 ^ (k + 1) * 16 := by ring
      rw [fmtIntegerHex, if_pos h16, hshift, hand, ih _ _ hlt, hexNumeral_step u h16]
      simp
    · have hu16 : u < 16 := by omega
      rw [fmtIntegerHex, if_neg h16, hexNumeral_lt u hu16]
      simp

/-- On a `uint64`, `%x` prints the lowercase hexadecimal numeral. -/
theorem sprintHex_eq (u : Nat) (hu : u < 2 ^ 64) : sprintHex u = hexNumeral u := by
  have h : u < 16 ^ (15 + 1) := by
    have : (16 : Nat) ^ (15 + 1) = 2 ^ 64 := by norm_num
    omega
  simpa [sprintHex] using fmtIntegerHex_eq 15 u [] h

theorem digitVal_lowerHexDigits (d : Nat) (hd : d < 16) :
    digitVal (lowerHexDigits.getD d '0') = some d := by
  interval_cases d <;> rfl

theorem lowerHexDigits_getD_mem (d : Nat) (hd : d < 16) :
    lowerHexDigits.getD d '0' ∈ lowerHexDigits := by
  interval_cases d <;> decide

theorem hexNumeral_ne_nil (n : Nat) : hexNumeral n ≠ [] := by
  unfold hexNumeral
  split
  · simp
  · rename_i h
    simp [Nat.digits_ne_nil_iff_ne_zero, h]

theorem hexNumeral_mem (n : Nat) : ∀ c ∈ hexNumeral n, c ∈ lowerHexDigits := by
  intro c hc
  unfold hexNumeral at hc
  split at hc
  · simp at hc
    subst hc
    decide
  · simp only [List.mem_map, List.mem_reverse] at hc
    obtain ⟨d, hd, rfl⟩ := hc
    exact lowerHexDigits_getD_mem d (Nat.digits_lt_base (by norm_num) hd)

theorem hexNumeral_length_le (n : Nat) (hn : n < 2 ^ 64) : (hexNumeral n).length ≤ 16 := by
  unfold hexNumeral
  split
  · simp
  · rename_i h
    simp only [List.length_map, List.length_reverse]
    have h1 := Nat.base_pow_length_digits_le 16 n (by norm_num) h
    have h2 : (16 : Nat) ^ (Nat.digits 16 n).length < 16 ^ 17 := by
      calc (16 : Nat) ^ (Nat.digits 16 n).length ≤ 16 * n := h1
        _ < 16 ^ 17 := by
          have : (16 : Nat) ^ 17 = 16 * 2 ^ 64 := by norm_num
          omega
    have h3 := (Nat.pow_lt_pow_iff_right (by norm_num : 1 < 16)).mp h2
    omega

theorem hexValue_digits (L : List Nat) (hL : ∀ d ∈ L, d < 16) :
    hexValue (L.reverse.map (fun d => lowerHexDigits.getD d '0')) = Nat.ofDigits 16 L := by
  induction L with
  | nil => simp [hexValue]
  | cons d t ih =>
    have ht : ∀ x ∈ t, x < 16 := fun x hx => hL x (List.mem_cons_of_mem _ hx)
    have hd : d < 16 := hL d (List.mem_cons_self _ _)
    have ih1 := ih ht
    unfold hexValue at ih1 ⊢
    simp only [List.reverse_cons, List.map_append, List.map_cons, List.map_nil,
      List.foldl_append, List.foldl_cons, List.foldl_nil, ih1,
      digitVal_lowerHexDigits d hd, Option.getD_some, Nat.ofDigits_cons]
    ring

theorem hexValue_hexNumeral (n : Nat) : hexValue (hexNumeral n) = n := by
  unfold hexNumeral
  split
  · rename_i h
    subst h
    rfl
  · rw [hexValue_digits _ (fun d hd => Nat.digits_lt_base (by norm_num) hd),
      Nat.ofDigits_digits]

/-! ## Scanning a hexadecimal number -/

theorem lowerHexDigits_subset (c : Char) (hc : c ∈ lowerHexDigits) : c ∈ hexadecimalDigits := by
  simp only [lowerHexDigits, String.toList, List.mem_cons, List.mem_singleton] at hc
  rcases hc with h | h | h | h | h | h | h | h | h | h | h | h | h | h | h | h | h
  all_goals first | (subst h; decide) | (exact absurd h (List.not_mem_nil _))

theorem hexadecimalDigits_facts (c : Char) (hc : c ∈ hexadecimalDigits) :
    isSpace c = false ∧ (c == '\r') = false ∧ (c == '\n') = false ∧
      ∃ d, digitVal c = some d ∧ d < 16 := by
  simp only [hexadecimalDigits, String.toList, List.mem_cons, List.mem_singleton] at hc
  rcases hc with h | h | h | h | h | h | h | h | h | h | h | h | h | h | h | h | h | h | h | h
    | h | h | h
  all_goals first
    | (subst h; exact ⟨by decide, by decide, by decide, _, rfl, by decide⟩)
    | (exact absurd h (List.not_mem_nil _))

theorem SkipSpace_digit (r : Char) (rest : GoString) (count : Nat)
    (hr : r ∈ hexadecimalDigits) : SkipSpace (r :: rest) count = .ok ⟨r :: rest, count⟩ := by
  obtain ⟨h1, h2, h3, _⟩ := hexadecimalDigits_facts r hr
  unfold SkipSpace
  by_cases hc : count ≥ hugeWid
  · simp [hc]
  · simp [hc, h1, h2, h3]

theorem acceptLoop_append (digits : GoString) : ∀ (pre rest : GoString) (count : Nat)
    (buf : GoString), (∀ c ∈ pre, c ∈ digits) → count + pre.length ≤ hugeWid →
    (rest = [] ∨ count + pre.length = hugeWid ∨ ∃ r t, rest = r :: t ∧ r ∉ digits) →
    acceptLoop digits (pre ++ rest) count buf = (buf ++ pre, ⟨rest, count + pre.length⟩) := by
  intro pre
  induction pre with
  | nil =>
    intro rest count buf _ _ hstop
    rcases hstop with h | h | ⟨r, t, h, hr⟩
    · subst h; simp [acceptLoop]
    · cases rest with
      | nil => simp [acceptLoop]
      | cons r t =>
        have : count ≥ hugeWid := by simp at h; omega
        simp [acceptLoop, this]
    · subst h
      by_cases hc : count ≥ hugeWid
      · simp [acceptLoop, hc]
      · simp [acceptLoop, hc, hr]
  | cons p ps ih =>
    intro rest count buf hall hlen hstop
    have hp : p ∈ digits := hall p (List.mem_cons_self _ _)
    have hps : ∀ c ∈ ps, c ∈ digits := fun c hc => hall c (List.mem_cons_of_mem _ hc)
    have hlen1 : count + 1 + ps.length ≤ hugeWid := by simp at hlen; omega
    have hc : ¬ count ≥ hugeWid := by simp at hlen; omega
    have hstop1 : rest = [] ∨ count + 1 + ps.length = hugeWid ∨
        ∃ r t, rest = r :: t ∧ r ∉ digits := by
      rcases hstop with h | h | h
      · exact Or.inl h
      · right; left; simp at h; omega
      · exact Or.inr (Or.inr h)
    have := ih rest (count + 1) (buf ++ [p]) hps hlen1 hstop1
    have hcount : count + 1 + ps.length = count + (p :: ps).length := by
      simp only [List.length_cons]; omega
    rw [List.cons_append, acceptLoop]
    simp only [hc, if_false, hp, if_true]
    rw [this, hcount]
    simp

theorem foldl_hex_ge (cs : GoString) : ∀ n : Nat,
    n ≤ cs.foldl (fun n c => n * 16 + (digitVal c).getD 0) n := by
  induction cs with
  | nil => intro n; simp
  | cons c cs ih =>
    intro n
    simp only [List.foldl_cons]
    exact le_trans (by omega) (ih _)

theorem parseUintLoop_ok (s0 : GoString) : ∀ (cs : GoString) (n : Nat),
    (∀ c ∈ cs, c ∈ hexadecimalDigits) →
    cs.foldl (fun n c => n * 16 + (digitVal c).getD 0) n < 2 ^ 64 →
    parseUintLoop s0 cs n = .ok (cs.foldl (fun n c => n * 16 + (digitVal c).getD 0) n) := by
  intro cs
  induction cs with
  | nil => intro n _ _; simp [parseUintLoop]
  | cons c cs ih =>
    intro n hall hlt
    obtain ⟨_, _, _, d, hd, hd16⟩ := hexadecimalDigits_facts c (hall c (List.mem_cons_self _ _))
    have hcs : ∀ x ∈ cs, x ∈ hexadecimalDigits := fun x hx => hall x (List.mem_cons_of_mem _ hx)
    simp only [List.foldl_cons, hd, Option.getD_some] at hlt ⊢
    have hge := foldl_hex_ge cs (n * 16 + d)
    have h1 : n * 16 + d < 2 ^ 64 := lt_of_le_of_lt hge hlt
    have h2 : ¬ n ≥ (2 ^ 64 - 1) / 16 + 1 := by
      have : (2 ^ 64 - 1) / 16 + 1 = 2 ^ 60 := by norm_num
      omega
    have h3 : (n * 16) % 2 ^ 64 = n * 16 := Nat.mod_eq_of_lt (by omega)
    have h4 : (n * 16 + d) % 2 ^ 64 = n * 16 + d := Nat.mod_eq_of_lt h1
    have h5 : ¬ (n * 16 + d < n * 16 ∨ n * 16 + d > 2 ^ 64 - 1) := by omega
    have h6 : ¬ d ≥ 16 := by omega
    rw [parseUintLoop]
    simp only [hd, h6, if_false, h2, h3, h4, h5]
    exact ih _ hcs hlt

theorem ParseUint16_ok (tok : GoString) (hne : tok ≠ [])
    (hall : ∀ c ∈ tok, c ∈ hexadecimalDigits) (hlt : hexValue tok < 2 ^ 64) :
    ParseUint16 tok = .ok (hexValue tok) := by
  unfold ParseUint16
  rw [if_neg hne]
  exact parseUintLoop_ok tok tok 0 hall hlt

theorem truncate_eq (bits i : Nat) (hb : bits ≤ 64) :
    ((i <<< (64 - bits)) % 2 ^ 64) >>> (64 - bits) = i % 2 ^ bits := by
  have hpow : (2 : Nat) ^ 64 = 2 ^ bits * 2 ^ (64 - bits) := by
    rw [← pow_add]; congr 1; omega
  rw [Nat.shiftLeft_eq, Nat.shiftRight_eq_div_pow, hpow, Nat.mul_mod_mul_right,
    Nat.mul_div_cancel _ (by positivity)]

theorem hugeWid_pos : 0 < hugeWid := by decide

/-- Scanning `%x` over a run of hexadecimal digits `h` followed by `rest`
yields the value of `h`, provided the run ends there. -/
theorem SscanfHex_digits (bits : Nat) (hb : bits ≤ 64) (h rest : GoString) (v : Nat)
    (hne : h ≠ []) (hall : ∀ c ∈ h, c ∈ hexadecimalDigits) (hlen : h.length ≤ hugeWid)
    (hstop : rest = [] ∨ h.length = hugeWid ∨ ∃ r t, rest = r :: t ∧ r ∉ hexadecimalDigits)
    (hval : hexValue h < 2 ^ bits) :
    SscanfHex bits (h ++ rest) v = (1, hexValue h, none) := by
  cases h with
  | nil => exact absurd rfl hne
  | cons r t =>
    have hr : r ∈ hexadecimalDigits := hall r (List.mem_cons_self _ _)
    have ht : ∀ c ∈ t, c ∈ hexadecimalDigits := fun c hc => hall c (List.mem_cons_of_mem _ hc)
    have hlen1 : 0 + 1 + t.length ≤ hugeWid := by simp at hlen; omega
    have hstop1 : rest = [] ∨ 0 + 1 + t.length = hugeWid ∨
        ∃ r t, rest = r :: t ∧ r ∉ hexadecimalDigits := by
      rcases hstop with h | h | h
      · exact Or.inl h
      · right; left; simp at h; omega
      · exact Or.inr (Or.inr h)
    have hacc := acceptLoop_append hexadecimalDigits t rest (0 + 1) [r] ht hlen1 hstop1
    have h64 : hexValue (r :: t) < 2 ^ 64 :=
      lt_of_lt_of_le hval (Nat.pow_le_pow_right (by norm_num) hb)
    have hparse := ParseUint16_ok (r :: t) hne hall h64
    have htr := truncate_eq bits (hexValue (r :: t)) hb
    rw [Nat.mod_eq_of_lt hval] at htr
    have hpos : ¬ (0 ≥ hugeWid) := by have := hugeWid_pos; omega
    simp only [SscanfHex, List.cons_append, SkipSpace_digit r (t ++ rest) 0 hr, scanUint,
      notEOF, hpos, if_false, scanNumber, hr, if_true, hacc, List.singleton_append,
      List.nil_append, hparse, htr, ne_eq, not_true_eq_false]

/-! ## Splitting at `-v` -/

theorem Index_eq_none_iff (sep : GoString) : ∀ s : GoString,
    Index s sep = none ↔ ¬ sep <:+: s := by
  intro s
  induction s with
  | nil =>
    by_cases h : sep = []
    · simp [Index, h]
    · simp [Index, h]
  | cons c cs ih =>
    rw [Index, List.infix_cons_iff]
    by_cases hp : sep.isPrefixOf (c :: cs) = true
    · have hp1 : sep <+: c :: cs := List.isPrefixOf_iff_prefix.mp hp
      simp [hp, hp1]
    · have hp1 : ¬ sep <+: c :: cs := fun h => hp (List.isPrefixOf_iff_prefix.mpr h)
      simp [hp, hp1, ih]

theorem Index_dashv (h : GoString) : ∀ N : GoString, ¬ ['-', 'v'] <:+: N →
    Index (N ++ '-' :: 'v' :: h) ['-', 'v'] = some N.length := by
  intro N
  induction N with
  | nil => intro _; simp [Index, List.isPrefixOf]
  | cons c N ih =>
    intro hN
    have hN1 : ¬ ['-', 'v'] <:+: N := fun hi => hN (List.infix_cons hi)
    have hp : List.isPrefixOf ['-', 'v'] (c :: (N ++ '-' :: 'v' :: h)) = false := by
      cases N with
      | nil => simp [List.isPrefixOf]
      | cons c1 N1 =>
        by_contra hcon
        simp only [List.cons_append, List.isPrefixOf, Bool.and_true, Bool.not_eq_false,
          Bool.and_eq_true, beq_iff_eq] at hcon
        obtain ⟨h1, h2⟩ := hcon
        subst h1 h2
        exact hN ⟨[], N1, by simp⟩
    rw [List.cons_append, Index, hp, ih hN1]
    simp

theorem take_dashv (N h : GoString) : (N ++ '-' :: 'v' :: h).take N.length = N := by
  simp

theorem drop_dashv (N h : GoString) : (N ++ '-' :: 'v' :: h).drop (N.length + 2) = h := by
  have : N ++ '-' :: 'v' :: h = (N ++ ['-', 'v']) ++ h := by simp
  rw [this]
  have hl : N.length + 2 = (N ++ ['-', 'v']).length := by simp
  rw [hl, List.drop_left]

theorem Count_dashv (N h : GoString) (hN : ¬ ['-', 'v'] <:+: N) (hh : ¬ ['-', 'v'] <:+: h) :
    Count (N ++ '-' :: 'v' :: h) ['-', 'v'] = 1 := by
  have hlen : (N ++ '-' :: 'v' :: h).length = (N.length + h.length + 1) + 1 := by
    simp; omega
  have hnone : Index h ['-', 'v'] = none := (Index_eq_none_iff _ h).mpr hh
  unfold Count
  rw [if_neg (by simp), hlen, countLoop, Index_dashv h N hN]
  simp only [List.length_cons, List.length_nil, drop_dashv]
  cases hk : N.length + h.length + 1 with
  | zero => simp [countLoop]
  | succ k => simp [countLoop, hnone]

/-- A string with `-v` between a name and a suffix that both have no `-v`
is split into exactly that name and that suffix. -/
theorem Split_dashv (N h : GoString) (hN : ¬ ['-', 'v'] <:+: N) (hh : ¬ ['-', 'v'] <:+: h) :
    Split (N ++ '-' :: 'v' :: h) ['-', 'v'] = [N, h] := by
  have hlen : (N ++ '-' :: 'v' :: h).length = N.length + h.length + 2 := by
    simp; omega
  unfold Split
  rw [if_neg (by simp), Count_dashv N h hN hh, hlen]
  have hmin : min (1 + 1) (N.length + h.length + 2 + 1) - 1 = 0 + 1 := by
    rw [Nat.min_eq_left (by omega)]
  rw [hmin, genSplitLoop, Index_dashv h N hN]
  simp only [List.length_cons, List.length_nil, drop_dashv, take_dashv, genSplitLoop]

theorem no_dashv_of_hex (h : GoString) (hall : ∀ c ∈ h, c ∈ hexadecimalDigits) :
    ¬ ['-', 'v'] <:+: h := by
  intro hi
  have hmem : '-' ∈ h := hi.subset (List.mem_cons_self _ _)
  have := hall _ hmem
  revert this
  decide

/-- Parsing `N-v<digits><rest>`: the name is `N` and the version is the value
of the digits, when `N` and the text after `-v` hold no further `-v`. -/
theorem VersionFromString_digits (bits : Nat) (hb : bits ≤ 64) (N h rest : GoString)
    (hN : ¬ ['-', 'v'] <:+: N) (hrest : ¬ ['-', 'v'] <:+: h ++ rest)
    (hne : h ≠ []) (hall : ∀ c ∈ h, c ∈ hexadecimalDigits) (hlen : h.length ≤ hugeWid)
    (hstop : rest = [] ∨ h.length = hugeWid ∨ ∃ r t, rest = r :: t ∧ r ∉ hexadecimalDigits)
    (hval : hexValue h < 2 ^ bits) :
    VersionFromString bits (N ++ '-' :: 'v' :: (h ++ rest)) = (⟨N, hexValue h⟩, none) := by
  have hsep : "-v".toList = ['-', 'v'] := rfl
  unfold VersionFromString
  simp only [hsep, Split_dashv N (h ++ rest) hN hrest,
    SscanfHex_digits bits hb h rest 0 hne hall hlen hstop hval]

theorem genSplitLoop_ne_nil (sep : GoString) (n : Nat) (s : GoString) :
    genSplitLoop sep n s ≠ [] := by
  cases n with
  | zero => simp [genSplitLoop]
  | succ k =>
    rw [genSplitLoop]
    split <;> simp

theorem genSplitLoop_singleton (sep : GoString) (n : Nat) (s x : GoString)
    (h : genSplitLoop sep n s = [x]) : x = s := by
  cases n with
  | zero => simpa [genSplitLoop] using h.symm
  | succ k =>
    rw [genSplitLoop] at h
    split at h
    · simpa using h.symm
    · simp only [List.cons.injEq] at h
      exact absurd h.2 (genSplitLoop_ne_nil _ _ _)

theorem Index_some (sep : GoString) (hsep : sep ≠ []) : ∀ (s : GoString) (m : Nat),
    Index s sep = some m →
    s = s.take m ++ sep ++ s.drop (m + sep.length) ∧ ¬ sep <:+: s.take m := by
  intro s
  induction s with
  | nil => intro m h; simp [Index, hsep] at h
  | cons c cs ih =>
    intro m h
    rw [Index] at h
    by_cases hp : sep.isPrefixOf (c :: cs) = true
    · simp only [hp, if_true, Option.some.injEq] at h
      subst h
      obtain ⟨t, ht⟩ := List.isPrefixOf_iff_prefix.mp hp
      refine ⟨?_, by simpa using hsep⟩
      rw [← ht]
      simp
    · simp only [hp, Bool.false_eq_true, if_false, Option.map_eq_some'] at h
      obtain ⟨m1, hm1, rfl⟩ := h
      obtain ⟨h1, h2⟩ := ih m1 hm1
      refine ⟨?_, ?_⟩
      · have : (c :: cs).drop (m1 + 1 + sep.length) = cs.drop (m1 + sep.length) := by
          have : m1 + 1 + sep.length = (m1 + sep.length) + 1 := by omega
          rw [this, List.drop_succ_cons]
        rw [this, List.take_succ_cons, List.cons_append, List.cons_append, ← h1]
      · rw [List.take_succ_cons, List.infix_cons_iff]
        rintro (hpre | hin)
        · apply hp
          apply List.isPrefixOf_iff_prefix.mpr
          exact hpre.trans (List.prefix_cons_inj c |>.mpr (List.take_prefix m1 cs))
        · exact h2 hin

theorem countLoop_ge (substr : GoString) : ∀ (fuel : Nat) (s : GoString) (n : Nat),
    n ≤ countLoop substr fuel s n := by
  intro fuel
  induction fuel with
  | zero => intro s n; simp [countLoop]
  | succ k ih =>
    intro s n
    rw [countLoop]
    split
    · exact le_refl _
    · exact le_trans (by omega) (ih _ _)

theorem genSplitLoop_pair (sep : GoString) (n : Nat) (s p0 p1 : GoString)
    (h : genSplitLoop sep n s = [p0, p1]) :
    ∃ m k, n = k + 1 ∧ Index s sep = some m ∧ p0 = s.take m ∧
      p1 = s.drop (m + sep.length) ∧ (k = 0 ∨ Index p1 sep = none) := by
  cases n with
  | zero => simp [genSplitLoop] at h
  | succ k =>
    rw [genSplitLoop] at h
    cases hidx : Index s sep with
    | none => simp [hidx] at h
    | some m =>
      simp only [hidx, List.cons.injEq] at h
      obtain ⟨hp0, hrest⟩ := h
      have hp1 := genSplitLoop_singleton _ _ _ _ hrest
      refine ⟨m, k, rfl, rfl, hp0.symm, hp1, ?_⟩
      cases k with
      | zero => exact Or.inl rfl
      | succ k1 =>
        right
        rw [← hp1, genSplitLoop] at hrest
        cases hi1 : Index p1 sep with
        | none => rfl
        | some i1 =>
          simp only [hi1, List.cons.injEq] at hrest
          exact absurd hrest.2 (genSplitLoop_ne_nil _ _ _)

/-- When `-v` splits `s` into exactly two parts, `s` is the first part, `-v`
and the second part, and neither part holds a `-v`. -/
theorem Split_pair (s p0 p1 : GoString) (h : Split s ['-', 'v'] = [p0, p1]) :
    s = p0 ++ '-' :: 'v' :: p1 ∧ ¬ ['-', 'v'] <:+: p0 ∧ ¬ ['-', 'v'] <:+: p1 := by
  have hsep : (['-', 'v'] : GoString) ≠ [] := by simp
  unfold Split at h
  rw [if_neg hsep] at h
  obtain ⟨m, k, hn, hidx, hp0, hp1, hk⟩ := genSplitLoop_pair _ _ _ _ _ h
  obtain ⟨hs, hno⟩ := Index_some _ hsep s m hidx
  rw [← hp0, ← hp1] at hs
  rw [← hp0] at hno
  have hs1 : s = p0 ++ '-' :: 'v' :: p1 := by simpa using hs
  refine ⟨hs1, hno, ?_⟩
  rw [← Index_eq_none_iff]
  rcases hk with hk | hk
  · subst hk
    have hlen : s.length = p0.length + p1.length + 1 + 1 := by
      rw [hs1]; simp only [List.length_append, List.length_cons]; omega
    have hcount : Count s ['-', 'v'] = 1 := by
      rw [Nat.min_def] at hn
      split at hn <;> omega
    have h1 : countLoop ['-', 'v'] s.length s 0 = 1 := by
      simpa [Count] using hcount
    rw [hlen, countLoop, hidx] at h1
    simp only [] at h1
    rw [← hp1, countLoop] at h1
    cases hi1 : Index p1 ['-', 'v'] with
    | none => rfl
    | some i1 =>
      simp only [hi1] at h1
      have := countLoop_ge ['-', 'v'] (p0.length + p1.length)
        (List.drop (i1 + ['-', 'v'].length) p1) (0 + 1 + 1)
      omega
  · exact hk

/-! ## What a successful scan has read -/

theorem SkipSpace_ok : ∀ (rs : GoString) (count : Nat) (s1 : ss),
    SkipSpace rs count = .ok s1 →
    ∃ sp, rs = sp ++ s1.rs ∧ ∀ c ∈ sp, isSpace c = true ∧ c ≠ '\n' := by
  intro rs
  induction rs with
  | nil =>
    intro count s1 h
    simp only [SkipSpace, Except.ok.injEq] at h
    subst h
    exact ⟨[], rfl, by simp⟩
  | cons r rest ih =>
    intro count s1 h
    rw [SkipSpace] at h
    split at h
    · simp only [Except.ok.injEq] at h
      subst h
      exact ⟨[], rfl, by simp⟩
    · split at h
      · rename_i hcr
        simp only [Bool.and_eq_true, beq_iff_eq] at hcr
        obtain ⟨sp, hsp, hall⟩ := ih _ _ h
        refine ⟨r :: sp, by rw [hsp]; simp [← hsp], ?_⟩
        intro c hc
        rcases List.mem_cons.mp hc with hc | hc
        · subst hc
          rw [hcr.1]
          exact ⟨by decide, by decide⟩
        · exact hall c hc
      · split at h
        · simp at h
        · rename_i hnl
          split at h
          · simp only [Except.ok.injEq] at h
            subst h
            exact ⟨[], rfl, by simp⟩
          · rename_i hsp0
            obtain ⟨sp, hsp, hall⟩ := ih _ _ h
            refine ⟨r :: sp, by rw [hsp]; simp [← hsp], ?_⟩
            intro c hc
            rcases List.mem_cons.mp hc with hc | hc
            · subst hc
              refine ⟨by simpa using hsp0, ?_⟩
              simpa using hnl
            · exact hall c hc

theorem acceptLoop_inv (digits : GoString) : ∀ (rs : GoString) (count : Nat)
    (buf tok : GoString) (s2 : ss), acceptLoop digits rs count buf = (tok, s2) →
    ∃ pre, tok = buf ++ pre ∧ rs = pre ++ s2.rs ∧ ∀ c ∈ pre, c ∈ digits := by
  intro rs
  induction rs with
  | nil =>
    intro count buf tok s2 h
    simp only [acceptLoop, Prod.mk.injEq] at h
    obtain ⟨h1, h2⟩ := h
    subst h1 h2
    exact ⟨[], by simp, rfl, by simp⟩
  | cons r rest ih =>
    intro count buf tok s2 h
    rw [acceptLoop] at h
    split at h
    · simp only [Prod.mk.injEq] at h
      obtain ⟨h1, h2⟩ := h
      subst h1 h2
      exact ⟨[], by simp, rfl, by simp⟩
    · split at h
      · rename_i hr
        obtain ⟨pre, h1, h2, h3⟩ := ih _ _ _ _ h
        refine ⟨r :: pre, by simpa using h1, by rw [h2]; simp [← h2], ?_⟩
        intro c hc
        rcases List.mem_cons.mp hc with hc | hc
        · subst hc; exact hr
        · exact h3 c hc
      · simp only [Prod.mk.injEq] at h
        obtain ⟨h1, h2⟩ := h
        subst h1 h2
        exact ⟨[], by simp, rfl, by simp⟩

theorem parseUintLoop_inv (s0 : GoString) : ∀ (cs : GoString) (n i : Nat),
    parseUintLoop s0 cs n = .ok i →
    i = cs.foldl (fun n c => n * 16 + (digitVal c).getD 0) n := by
  intro cs
  induction cs with
  | nil =>
    intro n i h
    simp only [parseUintLoop, Except.ok.injEq] at h
    simp [h]
  | cons c cs ih =>
    intro n i h
    rw [parseUintLoop] at h
    cases hd : digitVal c with
    | none => simp [hd] at h
    | some d =>
      simp only [hd] at h
      split at h
      · simp at h
      · rename_i hd16
        split at h
        · simp at h
        · rename_i hcut
          have hcut1 : n < 2 ^ 60 := by
            have : (2 ^ 64 - 1) / 16 + 1 = 2 ^ 60 := by norm_num
            omega
          have h3 : (n * 16) % 2 ^ 64 = n * 16 := Nat.mod_eq_of_lt (by omega)
          have h4 : (n * 16 + d) % 2 ^ 64 = n * 16 + d := Nat.mod_eq_of_lt (by omega)
          simp only [h3, h4] at h
          split at h
          · simp at h
          · simp only [List.foldl_cons, hd, Option.getD_some]
            exact ih _ _ h

theorem scanNumber_inv (digits : GoString) (s : ss) (tok : GoString) (s2 : ss)
    (h : scanNumber digits s = .ok (tok, s2)) :
    tok ≠ [] ∧ (∀ c ∈ tok, c ∈ digits) ∧ s.rs = tok ++ s2.rs := by
  unfold scanNumber at h
  split at h
  · simp at h
  · cases hrs : s.rs with
    | nil => simp [hrs] at h
    | cons r rest =>
      simp only [hrs] at h
      split at h
      · rename_i hr
        simp only [Except.ok.injEq] at h
        obtain ⟨pre, h1, h2, h3⟩ := acceptLoop_inv _ _ _ _ _ _ h
        refine ⟨by simp [h1], ?_, by simp [h1, h2]⟩
        intro c hc
        rw [h1] at hc
        rcases List.mem_append.mp hc with hc | hc
        · simp only [List.mem_singleton] at hc
          subst hc; exact hr
        · exact h3 c hc
      · simp at h

theorem scanUint_inv (bits : Nat) (hb : bits ≤ 64) (s : ss) (x : Nat) (s2 : ss)
    (h : scanUint bits s = .ok (x, s2)) :
    ∃ sp tok, s.rs = sp ++ tok ++ s2.rs ∧ (∀ c ∈ sp, isSpace c = true ∧ c ≠ '\n') ∧
      tok ≠ [] ∧ (∀ c ∈ tok, c ∈ hexadecimalDigits) ∧ x = hexValue tok ∧
      hexValue tok < 2 ^ bits := by
  unfold scanUint at h
  cases hskip : SkipSpace s.rs s.count with
  | error e => simp [hskip] at h
  | ok s1 =>
    simp only [hskip] at h
    obtain ⟨sp, hsp, hspace⟩ := SkipSpace_ok _ _ _ hskip
    cases heof : notEOF s1 with
    | error e => simp [heof] at h
    | ok u =>
      simp only [heof] at h
      cases hnum : scanNumber hexadecimalDigits s1 with
      | error e => simp [hnum] at h
      | ok r =>
        obtain ⟨tok, s3⟩ := r
        simp only [hnum] at h
        obtain ⟨hne, hall, hrs⟩ := scanNumber_inv _ _ _ _ hnum
        cases hparse : ParseUint16 tok with
        | error e => simp [hparse] at h
        | ok i =>
          simp only [hparse, truncate_eq bits i hb] at h
          split at h
          · simp at h
          · rename_i hmod
            simp only [ne_eq, not_not] at hmod
            simp only [Except.ok.injEq, Prod.mk.injEq] at h
            obtain ⟨hx, hs⟩ := h
            have hi : i = hexValue tok := by
              unfold ParseUint16 at hparse
              rw [if_neg hne] at hparse
              exact parseUintLoop_inv _ _ _ _ hparse
            have hlt : i < 2 ^ bits := by
              rw [← hmod]; exact Nat.mod_lt _ (by positivity)
            refine ⟨sp, tok, ?_, hspace, hne, hall, ?_, ?_⟩
            · rw [hsp, hrs, hs]; simp
            · rw [← hx, hmod, hi]
            · rw [← hi]; exact hlt

/-- A scan with `%x` that reports no error has read optional spaces and then a
non-empty run of hexadecimal digits, whose value it stored. -/
theorem SscanfHex_inv (bits : Nat) (hb : bits ≤ 64) (str : GoString) (v k x : Nat)
    (h : SscanfHex bits str v = (k, x, none)) :
    ∃ sp tok rest, str = sp ++ tok ++ rest ∧ (∀ c ∈ sp, isSpace c = true ∧ c ≠ '\n') ∧
      tok ≠ [] ∧ (∀ c ∈ tok, c ∈ hexadecimalDigits) ∧ x = hexValue tok ∧
      hexValue tok < 2 ^ bits := by
  unfold SscanfHex at h
  cases hskip : SkipSpace str 0 with
  | error e => simp [hskip] at h
  | ok s0 =>
    simp only [hskip] at h
    obtain ⟨sp0, hsp0, hspace0⟩ := SkipSpace_ok _ _ _ hskip
    cases hscan : scanUint bits s0 with
    | error e => simp [hscan] at h
    | ok r =>
      obtain ⟨y, s2⟩ := r
      simp only [hscan, Prod.mk.injEq, and_true] at h
      obtain ⟨sp, tok, hrs, hspace, hne, hall, hy, hlt⟩ := scanUint_inv bits hb _ _ _ hscan
      refine ⟨sp0 ++ sp, tok, s2.rs, ?_, ?_, hne, hall, ?_, hlt⟩
      · rw [hsp0, hrs]; simp
      · intro c hc
        rcases List.mem_append.mp hc with hc | hc
        · exact hspace0 c hc
        · exact hspace c hc
      · rw [← h.2, hy]

/-! ## The versioned alias scheme -/

theorem hexNumeral_head (n : Nat) :
    hexNumeral n = ['0'] ∨ (hexNumeral n).head? ≠ some '0' := by
  by_cases h : n = 0
  · left; simp [hexNumeral, h]
  · right
    have hne : Nat.digits 16 n ≠ [] := Nat.digits_ne_nil_iff_ne_zero.mpr h
    have hlast := Nat.getLast_digit_ne_zero 16 h
    have hmem : (Nat.digits 16 n).getLast hne ∈ Nat.digits 16 n := List.getLast_mem hne
    have hlt := Nat.digits_lt_base (by norm_num : 1 < 16) hmem
    have hhead : (Nat.digits 16 n).reverse.head? = some ((Nat.digits 16 n).getLast hne) := by
      rw [List.head?_reverse, List.getLast?_eq_getLast _ hne]
    simp only [hexNumeral, h, if_false, List.head?_map, hhead, Option.map_some', ne_eq,
      Option.some.injEq]
    generalize (Nat.digits 16 n).getLast hne = d at hlast hlt
    interval_cases d <;> first | exact absurd rfl hlast | decide

theorem String_eq_hexNumeral (v : NameVersion) (hv : v.Version < 2 ^ 64) :
    v.String = v.Name ++ "-v".toList ++ hexNumeral v.Version := by
  rw [NameVersion.String, sprintHex_eq _ hv]

theorem VersionFromString_lower (bits : Nat) (hb : bits ≤ 64) (N h : GoString)
    (hN : ¬ "-v".toList <:+: N) (hne : h ≠ []) (hall : ∀ c ∈ h, c ∈ lowerHexDigits)
    (hlen : h.length ≤ hugeWid) (hval : hexValue h < 2 ^ bits) :
    VersionFromString bits (N ++ "-v".toList ++ h) = (⟨N, hexValue h⟩, none) := by
  have hall1 : ∀ c ∈ h, c ∈ hexadecimalDigits := fun c hc => lowerHexDigits_subset c (hall c hc)
  have := VersionFromString_digits bits hb N h [] hN
    (by simpa using no_dashv_of_hex h hall1) hne hall1 hlen (Or.inl rfl) hval
  simpa using this

/-- C1: for every `uint` version `V` and every name `N` that does not contain
`-v` (the empty name included), `VersionFromString(NameVersion{N,V}.String())`
returns exactly `NameVersion{N,V}` with a nil error. -/
theorem VersionFromString_String_roundtrip (bits : Nat) (hb : bits ≤ 64) (N : GoString)
    (V : Nat) (hV : V < 2 ^ bits) (hN : ¬ "-v".toList <:+: N) :
    VersionFromString bits (NameVersion.String ⟨N, V⟩) = (⟨N, V⟩, none) := by
  have h64 : V < 2 ^ 64 := lt_of_lt_of_le hV (Nat.pow_le_pow_right (by norm_num) hb)
  have hlen : (hexNumeral V).length ≤ hugeWid :=
    le_trans (hexNumeral_length_le V h64) (by decide)
  have := VersionFromString_lower bits hb N (hexNumeral V) hN (hexNumeral_ne_nil V)
    (hexNumeral_mem V) hlen (by rw [hexValue_hexNumeral]; exact hV)
  rw [hexValue_hexNumeral] at this
  rw [String_eq_hexNumeral ⟨N, V⟩ h64]
  exact this

theorem VersionFromString_String_roundtrip_witness :
    VersionFromString 64 (NameVersion.String ⟨"mySchema".toList, 13⟩) =
      (⟨"mySchema".toList, 13⟩, none) ∧
    VersionFromString 32 (NameVersion.String ⟨[], 4294967295⟩) = (⟨[], 4294967295⟩, none) :=
  ⟨VersionFromString_String_roundtrip 64 (by decide) "mySchema".toList 13 (by decide)
      (by decide),
    VersionFromString_String_roundtrip 32 (by decide) [] 4294967295 (by decide) (by decide)⟩

theorem hexValue_zeros_one (n : Nat) : hexValue (List.replicate n '0' ++ ['1']) = 1 ∧
    hexValue (List.replicate n '0') = 0 := by
  have hz : ∀ k : Nat, (List.replicate k '0').foldl
      (fun n c => n * 16 + (digitVal c).getD 0) 0 = 0 := by
    intro k
    induction k with
    | zero => rfl
    | succ k ih =>
      rw [List.replicate_succ, List.foldl_cons]
      exact ih
  refine ⟨?_, hz n⟩
  unfold hexValue
  rw [List.foldl_append, hz n]
  rfl

theorem replicate_zero_hex (n : Nat) : ∀ c ∈ List.replicate n '0', c ∈ hexadecimalDigits := by
  intro c hc
  rw [List.eq_of_mem_replicate hc]
  decide

/-- C2, as stated, fails: a name that itself holds `-v` makes `strings.Split`
return three parts, which `VersionFromString` rejects, and a numeral longer than
the scanner's limit of `2 ^ 30` runes is cut off before its last digit. -/
theorem VersionFromString_last_dashv_counterexample :
    VersionFromString 64 "my-vschema-v1".toList = (⟨[], 0⟩, some "invalid format") ∧
    hexValue (List.replicate hugeWid '0' ++ ['1']) = 1 ∧
    VersionFromString 64 ("a-v".toList ++ (List.replicate hugeWid '0' ++ ['1'])) =
      (⟨"a".toList, 0⟩, none) := by
  refine ⟨by decide, (hexValue_zeros_one hugeWid).1, ?_⟩
  have hall := replicate_zero_hex hugeWid
  have hrest : ¬ ['-', 'v'] <:+: List.replicate hugeWid '0' ++ ['1'] := by
    apply no_dashv_of_hex
    intro c hc
    rcases List.mem_append.mp hc with hc | hc
    · exact hall c hc
    · rw [List.mem_singleton.mp hc]; decide
  have hne : List.replicate hugeWid '0' ≠ [] := by
    intro h
    have := congrArg List.length h
    rw [List.length_replicate] at this
    exact absurd this (by decide)
  have := VersionFromString_digits 64 (le_refl _) "a".toList (List.replicate hugeWid '0') ['1']
    (by decide) hrest hne hall (by rw [List.length_replicate])
    (Or.inr (Or.inl (List.length_replicate _ _)))
    (by rw [(hexValue_zeros_one hugeWid).2]; decide)
  rw [(hexValue_zeros_one hugeWid).2] at this
  exact this

/-- C2, amended: for every string `N-v<h>` in which `N` holds no `-v` and `h`
is a non-empty lowercase hexadecimal numeral of at most `2 ^ 30` digits whose
value fits in a `uint`, `VersionFromString` returns a nil error with `Name`
equal to `N` and `Version` equal to the value of `h`. -/
theorem VersionFromString_single_dashv (bits : Nat) (hb : bits ≤ 64) (N h : GoString)
    (hN : ¬ "-v".toList <:+: N) (hne : h ≠ []) (hall : ∀ c ∈ h, c ∈ lowerHexDigits)
    (hlen : h.length ≤ hugeWid) (hval : hexValue h < 2 ^ bits) :
    VersionFromString bits (N ++ "-v".toList ++ h) = (⟨N, hexValue h⟩, none) :=
  VersionFromString_lower bits hb N h hN hne hall hlen hval

theorem VersionFromString_single_dashv_witness :
    VersionFromString 64 ("mySchema".toList ++ "-v".toList ++ "00d".toList) =
      (⟨"mySchema".toList, hexValue "00d".toList⟩, none) ∧ hexValue "00d".toList = 13 :=
  ⟨VersionFromString_single_dashv 64 (by decide) "mySchema".toList "00d".toList (by decide)
      (by decide) (by decide) (by decide) (by decide),
    by decide⟩

/-- A nil error from `VersionFromString` means the string had the lenient form. -/
theorem VersionFromString_ok_form (bits : Nat) (hb : bits ≤ 64) (s : GoString)
    (v : NameVersion) (h : VersionFromString bits s = (v, none)) : LenientForm bits s := by
  have hsep : "-v".toList = ['-', 'v'] := rfl
  unfold VersionFromString at h
  rw [hsep] at h
  cases hsplit : Split s ['-', 'v'] with
  | nil => simp [hsplit] at h
  | cons p0 t =>
    cases t with
    | nil => simp [hsplit] at h
    | cons p1 t1 =>
      cases t1 with
      | cons p2 t2 => simp [hsplit] at h
      | nil =>
        simp only [hsplit, Prod.mk.injEq] at h
        obtain ⟨hs, hp0, hp1⟩ := Split_pair s p0 p1 hsplit
        have hscan : SscanfHex bits p1 0 =
            ((SscanfHex bits p1 0).1, (SscanfHex bits p1 0).2.1, none) := by
          rw [← h.2]
        obtain ⟨sp, tok, rest, hstr, hspace, hne, hall, _, hlt⟩ :=
          SscanfHex_inv bits hb p1 0 _ _ hscan
        refine ⟨p0, sp, tok, rest, ?_, by rw [hsep]; exact hp0, ?_, hspace, hne, hall, hlt⟩
        · rw [hs, hstr, hsep]; simp
        · rw [hsep, ← hstr]; exact hp1

theorem not_lenient_of_no_dashv (bits : Nat) (s : GoString) (h : ¬ "-v".toList <:+: s) :
    ¬ LenientForm bits s := by
  rintro ⟨name, sp, hex, rest, hs, _⟩
  exact h ⟨name, sp ++ hex ++ rest, hs.symm⟩

/-- C3, as stated, fails: `Sscanf` with `%x` skips leading spaces, takes
uppercase digits and leaves whatever follows the digits unread, so strings with
a space after `-v`, with an uppercase digit, with a `0x` prefix or with trailing
characters are parsed with a nil error. -/
theorem VersionFromString_lenient_counterexample :
    VersionFromString 64 "foo-v 1".toList = (⟨"foo".toList, 1⟩, none) ∧
    VersionFromString 64 "foo-v1F".toList = (⟨"foo".toList, 31⟩, none) ∧
    VersionFromString 64 "foo-v0x1f".toList = (⟨"foo".toList, 0⟩, none) ∧
    VersionFromString 64 "foo-v1zz".toList = (⟨"foo".toList, 1⟩, none) := by
  decide

/-- C3, amended: every string that is not of the form
`<name>-v<spaces><hex><rest>` (a name without `-v`; optional spaces other than
a newline; one or more hexadecimal digits of either case whose value fits in a
`uint`; any further text without `-v`) makes `VersionFromString` return a
non-nil error. -/
theorem VersionFromString_rejects (bits : Nat) (hb : bits ≤ 64) (s : GoString)
    (h : ¬ LenientForm bits s) : (VersionFromString bits s).2 ≠ none := by
  intro hnone
  exact h (VersionFromString_ok_form bits hb s (VersionFromString bits s).1
    (by rw [← hnone]))

theorem VersionFromString_rejects_witness :
    ¬ LenientForm 64 "mySchema".toList ∧ (VersionFromString 64 "mySchema".toList).2 ≠ none :=
  ⟨not_lenient_of_no_dashv 64 _ (by decide),
    VersionFromString_rejects 64 (by decide) "mySchema".toList
      (not_lenient_of_no_dashv 64 _ (by decide))⟩

/-- C4: for every `NameVersion` `v`, `v.Alias()` and `v.String()` are the same
text, and that text is exactly `v.Name` followed by `-v` followed by `v.Version`
written in lowercase hexadecimal with no prefix and no leading zeros (version 0
is written `0`; `NameVersion{"mySchema", 13}` gives `mySchema-vd`). -/
theorem Alias_eq_String_hex (v : NameVersion) (hv : v.Version < 2 ^ 64) :
    v.Alias = v.String ∧
    v.String = v.Name ++ "-v".toList ++ hexNumeral v.Version ∧
    (∀ c ∈ hexNumeral v.Version, c ∈ lowerHexDigits) ∧
    hexValue (hexNumeral v.Version) = v.Version ∧
    (hexNumeral v.Version = "0".toList ∨ (hexNumeral v.Version).head? ≠ some '0') ∧
    hexNumeral 0 = "0".toList ∧
    NameVersion.String ⟨"mySchema".toList, 13⟩ = "mySchema-vd".toList :=
  ⟨rfl, String_eq_hexNumeral v hv, hexNumeral_mem v.Version, hexValue_hexNumeral v.Version,
    hexNumeral_head v.Version, by simp [hexNumeral], by decide⟩

theorem Alias_eq_String_hex_witness :
    (NameVersion.mk "foo".toList 255).Alias = "foo-vff".toList :=
  ((Alias_eq_String_hex ⟨"foo".toList, 255⟩ (by decide)).1).trans (by decide)

/-! ## The maps -/

theorem GoMap.find_store_same {K V : Type} [DecidableEq K] (m : GoMap K V) (k : K) (v : V) :
    (m.store k v).find k = some v := by
  simp [GoMap.find, GoMap.store]

theorem find_filter_ne {K V : Type} [DecidableEq K] (k k1 : K) (h : k1 ≠ k) :
    ∀ es : List (K × V), (es.filter (fun e => decide (e.1 ≠ k))).find?
      (fun e => decide (e.1 = k1)) = es.find? (fun e => decide (e.1 = k1)) := by
  intro es
  induction es with
  | nil => rfl
  | cons e es ih =>
    by_cases he : e.1 = k
    · have hne : ¬ e.1 = k1 := fun e1 => h (e1.symm.trans he)
      rw [List.filter_cons_of_neg (by simp [he]), List.find?_cons_of_neg _ (by simp [hne]), ih]
    · by_cases he1 : e.1 = k1
      · rw [List.filter_cons_of_pos (by simp [he]), List.find?_cons_of_pos _ (by simp [he1]),
          List.find?_cons_of_pos _ (by simp [he1])]
      · rw [List.filter_cons_of_pos (by simp [he]), List.find?_cons_of_neg _ (by simp [he1]),
          List.find?_cons_of_neg _ (by simp [he1]), ih]

theorem GoMap.find_store_other {K V : Type} [DecidableEq K] (m : GoMap K V) (k k1 : K) (v : V)
    (h : k1 ≠ k) : (m.store k v).find k1 = m.find k1 := by
  have hk : ¬ k = k1 := fun e => h e.symm
  unfold GoMap.find GoMap.store
  rw [List.find?_cons_of_neg _ (by simp [hk]), find_filter_ne k k1 h]

theorem GoMap.find_isSome_iff {K V : Type} [DecidableEq K] (m : GoMap K V) (k : K) :
    (m.find k).isSome = true ↔ k ∈ m.keys := by
  simp only [GoMap.find, GoMap.keys, Option.isSome_map', List.find?_isSome, decide_eq_true_eq,
    List.mem_map]

theorem GoMap.find_eq_none_iff {K V : Type} [DecidableEq K] (m : GoMap K V) (k : K) :
    m.find k = none ↔ k ∉ m.keys := by
  rw [← GoMap.find_isSome_iff]
  cases hf : m.find k with
  | none => simp
  | some v => simp

/-- C5 fails on the code: with the alias `foo-v0` known for UUID 7 and a codec
bound to UUID 7, `Decode(7, datum)` decodes the datum while
`DecodeVersion(foo-v0, datum)` returns the error `schema not know to this repo`;
with an unknown alias it calls `Decode` on the zero UUID instead. -/
theorem DecodeVersion_known_alias_errors :
    (sampleRepo.WhoIs (NameVersion.mk "foo".toList 0).Alias).1 = (7, true) ∧
    (sampleRepo.Decode sampleDeps 7 (some [2, 0])).1 = (some [2], none) ∧
    (sampleRepo.DecodeVersion sampleDeps ⟨"foo".toList, 0⟩ (some [2, 0])).1 =
      (none, some "schema not know to this repo") ∧
    (sampleRepo.DecodeVersion sampleDeps ⟨"bar".toList, 0⟩ (some [2, 0])).1 =
      (sampleRepo.Decode sampleDeps 0 (some [2, 0])).1 := by
  decide

/-- C6: if `WhoIs(nv.Alias())` returns `(u, true)` then `EncodeVersion(nv, datum)`
returns exactly what `Encode(u, datum)` returns; if the alias is unknown,
`EncodeVersion` returns nil bytes and a non-nil error whatever the codec
functions are, that is without calling any codec. -/
theorem EncodeVersion_eq_Encode {Codec Native : Type} (deps : Deps Codec Native)
    (repo : LocalRepo Codec) (nv : NameVersion) (datum : Option Native) :
    (∀ u, (repo.WhoIs nv.Alias).1 = (u, true) →
      repo.EncodeVersion deps nv datum = repo.Encode deps u datum) ∧
    ((repo.WhoIs nv.Alias).1.2 = false →
      ∀ deps2 : Deps Codec Native, repo.EncodeVersion deps2 nv datum =
        ((none, some "schema not know to this repo"), repo)) := by
  constructor
  · intro u h
    simp only [LocalRepo.WhoIs] at h
    simp [LocalRepo.EncodeVersion, LocalRepo.WhoIs, h]
  · intro h deps2
    simp only [LocalRepo.WhoIs] at h
    simp only [LocalRepo.EncodeVersion, LocalRepo.WhoIs, h]
    simp

theorem EncodeVersion_eq_Encode_witness :
    sampleRepo.EncodeVersion sampleDeps ⟨"foo".toList, 0⟩ (some [1, 2]) =
      sampleRepo.Encode sampleDeps 7 (some [1, 2]) ∧
    (sampleRepo.EncodeVersion sampleDeps ⟨"foo".toList, 1⟩ (some [1, 2])).1 =
      (none, some "schema not know to this repo") :=
  ⟨(EncodeVersion_eq_Encode sampleDeps sampleRepo ⟨"foo".toList, 0⟩ (some [1, 2])).1 7
      (by decide),
    congrArg Prod.fst
      ((EncodeVersion_eq_Encode sampleDeps sampleRepo ⟨"foo".toList, 1⟩ (some [1, 2])).2
        (by decide) sampleDeps)⟩

/-- C7: if `u` is absent from the SchemaMap, `Encode(u, datum)` and
`Decode(u, datum)` both return a nil result together with the error
`schema not present`; if `u` is present, they return exactly the result of the
bound codec's `BinaryFromNative(nil, datum)` and `NativeFromBinary(datum)`
respectively.  Neither call changes the maps. -/
theorem Encode_Decode_by_UUID {Codec Native : Type} (deps : Deps Codec Native)
    (repo : LocalRepo Codec) (u : UUID) (native : Option Native) (binary : ByteSlice) :
    (u ∉ repo.Schemata.Map.keys →
      (repo.Encode deps u native).1 = (none, some "schema not present") ∧
      (repo.Decode deps u binary).1 = (none, some "schema not present")) ∧
    (∀ codec, repo.Schemata.Map.find u = some codec →
      (repo.Encode deps u native).1 = deps.BinaryFromNative codec none native ∧
      (repo.Decode deps u binary).1 =
        ((deps.NativeFromBinary codec binary).1, (deps.NativeFromBinary codec binary).2.2)) ∧
    (repo.Encode deps u native).2 = repo ∧ (repo.Decode deps u binary).2 = repo := by
  refine ⟨?_, ?_, ?_, ?_⟩
  · intro h
    have hnone := (GoMap.find_eq_none_iff _ _).mpr h
    simp [LocalRepo.Encode, LocalRepo.Decode, hnone]
  · intro codec h
    simp [LocalRepo.Encode, LocalRepo.Decode, h]
  · unfold LocalRepo.Encode
    cases repo.Schemata.Map.find u <;> rfl
  · unfold LocalRepo.Decode
    cases repo.Schemata.Map.find u <;> rfl

theorem Encode_Decode_by_UUID_witness :
    ((sampleRepo.Encode sampleDeps 8 (some [1])).1 = (none, some "schema not present") ∧
      (sampleRepo.Decode sampleDeps 8 (some [2, 0])).1 = (none, some "schema not present")) ∧
    ((sampleRepo.Encode sampleDeps 7 (some [1])).1 = (some [1], none) ∧
      (sampleRepo.Decode sampleDeps 7 (some [2, 0])).1 = (some [2], none)) :=
  ⟨(Encode_Decode_by_UUID sampleDeps sampleRepo 8 (some [1]) (some [2, 0])).1 (by decide),
    (Encode_Decode_by_UUID sampleDeps sampleRepo 7 (some [1]) (some [2, 0])).2.1
      "\"long\"".toList (by decide)⟩

/-- C8 fails on the code: in a repository that does not know the alias,
`WaitAliasReady` returns the channel `aliasIsReady`, and its goroutine sends
`true` on it even when every channel handed out by `Observe` delivers `false`. -/
theorem WaitAliasReady_ignores_abort :
    ((LocalRepo.new : LocalRepo GoString).WaitAliasReady sampleDeps "foo-v0".toList).1 =
      Sink.aliasIsReady "foo-v0".toList ∧
    Sink.receive sampleDeps (LocalRepo.new : LocalRepo GoString)
      ⟨fun _ => false, fun _ => false⟩ (Sink.observeAlias "foo-v0".toList) = false ∧
    Sink.receive sampleDeps (LocalRepo.new : LocalRepo GoString)
      ⟨fun _ => false, fun _ => false⟩ (Sink.aliasIsReady "foo-v0".toList) = true ∧
    Sink.receive sampleDeps sampleRepo
      ⟨fun _ => true, fun _ => false⟩ (Sink.aliasIsReady "foo-v1".toList) = true := by
  decide

/-- C9: `AliasMap.Insert(k, v)` and `SchemaMap.Upsert(k, v)` return true
exactly when `k` was already a key of the map before the call, and after the
call a lookup of `k` yields `(v, present)`. -/
theorem Insert_Upsert_overwritten {Codec : Type} (am : AliasMap) (k : Alias) (v : UUID)
    (sm : SchemaMap Codec) (u : UUID) (codec : Codec) :
    ((am.Insert k v).1 = true ↔ k ∈ am.Map.keys) ∧
    (am.Insert k v).2.Map.commaOk k 0 = (v, true) ∧
    ((sm.Upsert u codec).1 = true ↔ u ∈ sm.Map.keys) ∧
    (sm.Upsert u codec).2.Map.find u = some codec ∧
    u ∈ (sm.Upsert u codec).2.Map.keys := by
  refine ⟨?_, ?_, ?_, ?_, ?_⟩
  · exact GoMap.find_isSome_iff _ _
  · simp [AliasMap.Insert, GoMap.commaOk, GoMap.find_store_same]
  · exact GoMap.find_isSome_iff _ _
  · simp [SchemaMap.Upsert, GoMap.find_store_same]
  · rw [← GoMap.find_isSome_iff]
    simp [SchemaMap.Upsert, GoMap.find_store_same]

/-! ## Replay of schema updates -/

theorem handleSchemaUpdate_find {Codec Native : Type} (deps : Deps Codec Native)
    (repo : LocalRepo Codec) (message : Message) (u : UUID) :
    (repo.handleSchemaUpdate deps message).2.Schemata.Map.find u =
      (compiledFor deps u message).or (repo.Schemata.Map.find u) := by
  unfold LocalRepo.handleSchemaUpdate compiledFor
  cases deps.UnmarshalUpdateRequest message.Value with
  | error e => simp
  | ok request =>
    cases hc : deps.NewCodec request.Spec with
    | error e => simp [hc]
    | ok codec =>
      by_cases hu : request.UUID = u
      · subst hu
        simp [hc, SchemaMap.Upsert, GoMap.find_store_same]
      · have hu1 : u ≠ request.UUID := fun e => hu e.symm
        simp [hc, SchemaMap.Upsert, GoMap.find_store_other _ _ _ _ hu1, hu]

theorem lastCompiled_cons {Codec Native : Type} (deps : Deps Codec Native) (message : Message)
    (records : List Message) (u : UUID) :
    lastCompiled deps (message :: records) u =
      (lastCompiled deps records u).or (compiledFor deps u message) := by
  unfold lastCompiled
  rw [List.reverse_cons, List.findSome?_append]
  congr 1
  cases h : compiledFor deps u message <;> simp [List.findSome?, h]

theorem replaySchemaUpdates_find {Codec Native : Type} (deps : Deps Codec Native) (u : UUID) :
    ∀ (records : List Message) (repo : LocalRepo Codec),
    (repo.replaySchemaUpdates deps records).Schemata.Map.find u =
      (lastCompiled deps records u).or (repo.Schemata.Map.find u) := by
  intro records
  induction records with
  | nil => intro repo; simp [LocalRepo.replaySchemaUpdates, lastCompiled]
  | cons message records ih =>
    intro repo
    have hstep : repo.replaySchemaUpdates deps (message :: records) =
        (repo.handleSchemaUpdate deps message).2.replaySchemaUpdates deps records := rfl
    rw [hstep, ih, handleSchemaUpdate_find, lastCompiled_cons, Option.or_assoc]

theorem compiledFor_isSome_iff {Codec Native : Type} (deps : Deps Codec Native) (u : UUID)
    (message : Message) :
    (compiledFor deps u message).isSome = true ↔
      ∃ request codec, deps.UnmarshalUpdateRequest message.Value = .ok request ∧
        request.UUID = u ∧ deps.NewCodec request.Spec = .ok codec := by
  unfold compiledFor
  cases deps.UnmarshalUpdateRequest message.Value with
  | error e => simp
  | ok request =>
    by_cases hu : request.UUID = u
    · cases hc : deps.NewCodec request.Spec with
      | error e => simp [hu, hc]
      | ok codec => simp [hu, hc]
    · simp only [hu, if_false, Option.isSome_none, Bool.false_eq_true, Except.ok.injEq,
        false_iff, not_exists, not_and]
      intro r c hr hru
      rw [← hr] at hru
      exact absurd hru hu

/-- C10: after `handleSchemaUpdate` has been applied in order to a finite
sequence of `schema_update` records, starting from an empty store, the
SchemaMap binds `u` exactly when some record for `u` decoded and its spec
compiled, and then binds `u` to the codec compiled from the spec of the last
such record for `u`; two valid updates for the same UUID leave the codec of
the second. -/
theorem replaySchemaUpdates_last_writer {Codec Native : Type} (deps : Deps Codec Native)
    (records : List Message) (u : UUID) :
    ((LocalRepo.new : LocalRepo Codec).replaySchemaUpdates deps records).Schemata.Map.find u =
      lastCompiled deps records u ∧
    ((((LocalRepo.new : LocalRepo Codec).replaySchemaUpdates deps records).Schemata.Map.find
        u).isSome = true ↔
      ∃ message ∈ records, ∃ request codec,
        deps.UnmarshalUpdateRequest message.Value = .ok request ∧ request.UUID = u ∧
        deps.NewCodec request.Spec = .ok codec) ∧
    (∀ (ma mb : Message) (ca cb : Codec), compiledFor deps u ma = some ca →
      compiledFor deps u mb = some cb →
      ((LocalRepo.new : LocalRepo Codec).replaySchemaUpdates deps [ma, mb]).Schemata.Map.find u =
        some cb) := by
  have hnew : (LocalRepo.new : LocalRepo Codec).Schemata.Map.find u = none := rfl
  have hmain : ∀ rs : List Message,
      ((LocalRepo.new : LocalRepo Codec).replaySchemaUpdates deps rs).Schemata.Map.find u =
        lastCompiled deps rs u := by
    intro rs
    rw [replaySchemaUpdates_find, hnew, Option.or_none]
  refine ⟨hmain records, ?_, ?_⟩
  · rw [hmain records]
    unfold lastCompiled
    rw [List.findSome?_isSome_iff]
    constructor
    · rintro ⟨m, hm, hsome⟩
      exact ⟨m, List.mem_reverse.mp hm, (compiledFor_isSome_iff deps u m).mp hsome⟩
    · rintro ⟨m, hm, hex⟩
      exact ⟨m, List.mem_reverse.mpr hm, (compiledFor_isSome_iff deps u m).mpr hex⟩
  · intro ma mb ca cb ha hb
    rw [hmain [ma, mb]]
    simp [lastCompiled, List.findSome?, hb]

theorem replaySchemaUpdates_last_writer_witness :
    ((LocalRepo.new : LocalRepo GoString).replaySchemaUpdates sampleDeps
      [⟨some [3, 97]⟩, ⟨some [5, 99]⟩, ⟨some [3]⟩, ⟨none⟩, ⟨some [3, 98]⟩, ⟨some [5]⟩]
      ).Schemata.Map.find 3 = some ['b'] ∧
    ((LocalRepo.new : LocalRepo GoString).replaySchemaUpdates sampleDeps
      [⟨some [3, 97]⟩, ⟨some [3, 98]⟩]).Schemata.Map.find 3 = some ['b'] :=
  ⟨(replaySchemaUpdates_last_writer sampleDeps
      [⟨some [3, 97]⟩, ⟨some [5, 99]⟩, ⟨some [3]⟩, ⟨none⟩, ⟨some [3, 98]⟩, ⟨some [5]⟩] 3).1.trans
      (by decide),
    (replaySchemaUpdates_last_writer sampleDeps [] 3).2.2 ⟨some [3, 97]⟩ ⟨some [3, 98]⟩
      ['a'] ['b'] (by decide) (by decide)⟩

/-! ## Rejected records and the two orders of arrival -/

theorem handleSchemaUpdate_error_state {Codec Native : Type} (deps : Deps Codec Native)
    (repo : LocalRepo Codec) (message : Message)
    (h : (∃ e, deps.UnmarshalUpdateRequest message.Value = .error e) ∨
      ∃ request e, deps.UnmarshalUpdateRequest message.Value = .ok request ∧
        deps.NewCodec request.Spec = .error e) :
    (repo.handleSchemaUpdate deps message).1 ≠ none ∧
      (repo.handleSchemaUpdate deps message).2 = repo := by
  unfold LocalRepo.handleSchemaUpdate
  rcases h with ⟨e, he⟩ | ⟨request, e, hr, he⟩
  · simp [he]
  · simp [hr, he]

/-- C11: for every store state and every `schema_update` record whose body does
not decode or whose spec does not compile to a codec, `handleSchemaUpdate`
returns a non-nil error and leaves both the SchemaMap and the AliasMap exactly
as they were; a UUID already bound keeps its previous codec and a UUID not yet
bound stays absent (`GetSpecification` returns `present = false`). -/
theorem handleSchemaUpdate_rejects {Codec Native : Type} (deps : Deps Codec Native)
    (repo : LocalRepo Codec) (message : Message)
    (h : (∃ e, deps.UnmarshalUpdateRequest message.Value = .error e) ∨
      ∃ request e, deps.UnmarshalUpdateRequest message.Value = .ok request ∧
        deps.NewCodec request.Spec = .error e) :
    (repo.handleSchemaUpdate deps message).1 ≠ none ∧
    (repo.handleSchemaUpdate deps message).2 = repo ∧
    (∀ u, (repo.handleSchemaUpdate deps message).2.Schemata.Map.find u =
      repo.Schemata.Map.find u) ∧
    (∀ name, (repo.handleSchemaUpdate deps message).2.Aliases.Map.find name =
      repo.Aliases.Map.find name) ∧
    (∀ u, u ∉ repo.Schemata.Map.keys →
      ((repo.handleSchemaUpdate deps message).2.GetSpecification deps u).1 = ([], false)) := by
  obtain ⟨herr, hstate⟩ := handleSchemaUpdate_error_state deps repo message h
  refine ⟨herr, hstate, ?_, ?_, ?_⟩
  · intro u; rw [hstate]
  · intro name; rw [hstate]
  · intro u hu
    rw [hstate]
    have hnone := (GoMap.find_eq_none_iff _ _).mpr hu
    simp [LocalRepo.GetSpecification, hnone]

theorem handleSchemaUpdate_rejects_witness :
    ((sampleRepo.handleSchemaUpdate sampleDeps ⟨none⟩).1 ≠ none ∧
      (sampleRepo.handleSchemaUpdate sampleDeps ⟨none⟩).2.Schemata.Map.find 7 =
        some "\"long\"".toList) ∧
    ((sampleRepo.handleSchemaUpdate sampleDeps ⟨some [7]⟩).1 ≠ none ∧
      (sampleRepo.handleSchemaUpdate sampleDeps ⟨some [7]⟩).2.Schemata.Map.find 7 =
        some "\"long\"".toList ∧
      ((sampleRepo.handleSchemaUpdate sampleDeps ⟨some [8]⟩).2.GetSpecification sampleDeps 8).1 =
        ([], false)) :=
  ⟨⟨(handleSchemaUpdate_rejects sampleDeps sampleRepo ⟨none⟩
        (Or.inl ⟨"unexpected end of JSON input", rfl⟩)).1,
      ((handleSchemaUpdate_rejects sampleDeps sampleRepo ⟨none⟩
        (Or.inl ⟨"unexpected end of JSON input", rfl⟩)).2.2.1 7).trans (by decide)⟩,
    ⟨(handleSchemaUpdate_rejects sampleDeps sampleRepo ⟨some [7]⟩
        (Or.inr ⟨⟨7, []⟩, "cannot unmarshal schema JSON", rfl, rfl⟩)).1,
      ((handleSchemaUpdate_rejects sampleDeps sampleRepo ⟨some [7]⟩
        (Or.inr ⟨⟨7, []⟩, "cannot unmarshal schema JSON", rfl, rfl⟩)).2.2.1 7).trans
        (by decide),
      (handleSchemaUpdate_rejects sampleDeps sampleRepo ⟨some [8]⟩
        (Or.inr ⟨⟨8, []⟩, "cannot unmarshal schema JSON", rfl, rfl⟩)).2.2.2.2 8
        (by decide)⟩⟩

/-- C12: for every UUID `U`, alias `A` and valid spec, one alias record
`{U, A}` and one schema record `{U, Spec}` applied to an empty store give the
same final state in either order: `WhoIs(A) = (U, true)` and
`GetSpecification(U)` is present, so that `WaitAliasReady(A)` called afterwards
resolves through `WaitSchemaReady(U)` to a sink that yields true. -/
theorem alias_schema_either_order {Codec Native : Type} (deps : Deps Codec Native)
    (aliasRecord schemaRecord : Message) (U : UUID) (A : GoString) (spec : GoString)
    (codec : Codec)
    (ha : deps.UnmarshalAliasRequest aliasRecord.Value = .ok ⟨U, A⟩)
    (hs : deps.UnmarshalUpdateRequest schemaRecord.Value = .ok ⟨U, spec⟩)
    (hc : deps.NewCodec spec = .ok codec) :
    (((LocalRepo.new : LocalRepo Codec).handleAliasUpdate deps aliasRecord).2.handleSchemaUpdate
        deps schemaRecord).2 =
      (((LocalRepo.new : LocalRepo Codec).handleSchemaUpdate deps schemaRecord).2.handleAliasUpdate
        deps aliasRecord).2 ∧
    ∀ final : LocalRepo Codec,
      final = (((LocalRepo.new : LocalRepo Codec).handleAliasUpdate deps
        aliasRecord).2.handleSchemaUpdate deps schemaRecord).2 →
      (final.WhoIs A).1 = (U, true) ∧
      (final.GetSpecification deps U).1 = (deps.Schema codec, true) ∧
      (final.WaitAliasReady deps A).1 = (final.WaitSchemaReady deps U).1 ∧
      (final.WaitAliasReady deps A).1 = Sink.ready ∧
      ∀ (later : LocalRepo Codec) (sig : Signals),
        Sink.receive deps later sig (final.WaitAliasReady deps A).1 = true := by
  have hfinal : (((LocalRepo.new : LocalRepo Codec).handleAliasUpdate deps
      aliasRecord).2.handleSchemaUpdate deps schemaRecord).2 =
      ⟨⟨GoMap.empty.store U codec⟩, ⟨GoMap.empty.store A U⟩⟩ := by
    simp [LocalRepo.handleAliasUpdate, LocalRepo.handleSchemaUpdate, ha, hs, hc, LocalRepo.new,
      NewSchemaMap, NewAliasMap, AliasMap.Insert, SchemaMap.Upsert]
  refine ⟨?_, ?_⟩
  · rw [hfinal]
    simp [LocalRepo.handleAliasUpdate, LocalRepo.handleSchemaUpdate, ha, hs, hc, LocalRepo.new,
      NewSchemaMap, NewAliasMap, AliasMap.Insert, SchemaMap.Upsert]
  · intro final hf
    rw [hfinal] at hf
    subst hf
    have hwho : (LocalRepo.WhoIs (⟨⟨GoMap.empty.store U codec⟩, ⟨GoMap.empty.store A U⟩⟩ :
        LocalRepo Codec) A).1 = (U, true) := by
      simp [LocalRepo.WhoIs, GoMap.commaOk, GoMap.find_store_same]
    have hwait : (LocalRepo.WaitSchemaReady deps (⟨⟨GoMap.empty.store U codec⟩,
        ⟨GoMap.empty.store A U⟩⟩ : LocalRepo Codec) U).1 = Sink.ready := by
      simp [LocalRepo.WaitSchemaReady, LocalRepo.GetSpecification, GoMap.find_store_same]
    have hwa : (LocalRepo.WaitAliasReady deps (⟨⟨GoMap.empty.store U codec⟩,
        ⟨GoMap.empty.store A U⟩⟩ : LocalRepo Codec) A).1 = Sink.ready := by
      simp [LocalRepo.WaitAliasReady, LocalRepo.WhoIs, GoMap.commaOk, GoMap.find_store_same,
        LocalRepo.WaitSchemaReady, LocalRepo.GetSpecification]
    refine ⟨hwho, ?_, ?_, hwa, ?_⟩
    · simp [LocalRepo.GetSpecification, GoMap.find_store_same]
    · rw [hwa, hwait]
    · intro later sig
      rw [hwa]
      rfl

theorem alias_schema_either_order_witness :
    ((((LocalRepo.new : LocalRepo GoString).handleAliasUpdate sampleDeps
        ⟨some [7, 102, 111, 111, 45, 118, 48]⟩).2.handleSchemaUpdate sampleDeps
        ⟨some [7, 97]⟩).2.WhoIs "foo-v0".toList).1 = (7, true) ∧
    ((((LocalRepo.new : LocalRepo GoString).handleAliasUpdate sampleDeps
        ⟨some [7, 102, 111, 111, 45, 118, 48]⟩).2.handleSchemaUpdate sampleDeps
        ⟨some [7, 97]⟩).2.WaitAliasReady sampleDeps "foo-v0".toList).1 = Sink.ready :=
  ⟨((alias_schema_either_order sampleDeps ⟨some [7, 102, 111, 111, 45, 118, 48]⟩
      ⟨some [7, 97]⟩ 7 "foo-v0".toList ['a'] ['a'] rfl rfl rfl).2 _ rfl).1,
    ((alias_schema_either_order sampleDeps ⟨some [7, 102, 111, 111, 45, 118, 48]⟩
      ⟨some [7, 97]⟩ 7 "foo-v0".toList ['a'] ['a'] rfl rfl rfl).2 _ rfl).2.2.2.1⟩

/-! ## Monotonic presence -/

theorem GoMap.mem_keys_store {K V : Type} [DecidableEq K] (m : GoMap K V) (k k1 : K) (v : V)
    (h : k1 ∈ m.keys) : k1 ∈ (m.store k v).keys := by
  rw [← GoMap.find_isSome_iff] at h ⊢
  by_cases hk : k1 = k
  · subst hk
    simp [GoMap.find_store_same]
  · rw [GoMap.find_store_other _ _ _ _ hk]
    exact h

theorem Decode_state {Codec Native : Type} (deps : Deps Codec Native) (repo : LocalRepo Codec)
    (schema : UUID) (datum : ByteSlice) : (repo.Decode deps schema datum).2 = repo := by
  unfold LocalRepo.Decode
  cases repo.Schemata.Map.find schema <;> rfl

theorem Encode_state {Codec Native : Type} (deps : Deps Codec Native) (repo : LocalRepo Codec)
    (schema : UUID) (datum : Option Native) : (repo.Encode deps schema datum).2 = repo := by
  unfold LocalRepo.Encode
  cases repo.Schemata.Map.find schema <;> rfl

theorem GetSpecification_state {Codec Native : Type} (deps : Deps Codec Native)
    (repo : LocalRepo Codec) (schema : UUID) : (repo.GetSpecification deps schema).2 = repo := by
  unfold LocalRepo.GetSpecification
  cases repo.Schemata.Map.find schema <;> rfl

theorem WaitSchemaReady_state {Codec Native : Type} (deps : Deps Codec Native)
    (repo : LocalRepo Codec) (schema : UUID) : (repo.WaitSchemaReady deps schema).2 = repo := by
  unfold LocalRepo.WaitSchemaReady LocalRepo.GetSpecification
  cases repo.Schemata.Map.find schema <;> rfl

theorem WaitAliasReady_state {Codec Native : Type} (deps : Deps Codec Native)
    (repo : LocalRepo Codec) (name : Alias) : (repo.WaitAliasReady deps name).2 = repo := by
  unfold LocalRepo.WaitAliasReady LocalRepo.WhoIs
  cases h : (repo.Aliases.Map.commaOk name 0).2
  · simp [h]
  · simp [h, WaitSchemaReady_state]

theorem DecodeVersion_state {Codec Native : Type} (deps : Deps Codec Native)
    (repo : LocalRepo Codec) (schema : NameVersion) (datum : ByteSlice) :
    (repo.DecodeVersion deps schema datum).2 = repo := by
  unfold LocalRepo.DecodeVersion LocalRepo.WhoIs
  cases h : (repo.Aliases.Map.commaOk schema.Alias 0).2
  · simp [h, Decode_state]
  · simp [h]

theorem EncodeVersion_state {Codec Native : Type} (deps : Deps Codec Native)
    (repo : LocalRepo Codec) (schema : NameVersion) (datum : Option Native) :
    (repo.EncodeVersion deps schema datum).2 = repo := by
  unfold LocalRepo.EncodeVersion LocalRepo.WhoIs
  cases h : (repo.Aliases.Map.commaOk schema.Alias 0).2
  · simp [h]
  · simp [h, Encode_state]

/-- One operation removes no key from either map. -/
theorem apply_keeps_keys {Codec Native : Type} (deps : Deps Codec Native)
    (repo : LocalRepo Codec) (op : Op Codec Native) :
    (∀ u, u ∈ repo.Schemata.Map.keys → u ∈ (repo.apply deps op).Schemata.Map.keys) ∧
    (∀ name, name ∈ repo.Aliases.Map.keys → name ∈ (repo.apply deps op).Aliases.Map.keys) := by
  cases op with
  | Insert name schemaUUID =>
    exact ⟨fun u h => h, fun n h => GoMap.mem_keys_store _ _ _ _ h⟩
  | Upsert schemaUUID codec =>
    exact ⟨fun u h => GoMap.mem_keys_store _ _ _ _ h, fun n h => h⟩
  | handleSchemaUpdate message =>
    simp only [LocalRepo.apply, LocalRepo.handleSchemaUpdate]
    cases deps.UnmarshalUpdateRequest message.Value with
    | error e => exact ⟨fun u h => h, fun n h => h⟩
    | ok request =>
      dsimp only
      cases deps.NewCodec request.Spec with
      | error e => exact ⟨fun u h => h, fun n h => h⟩
      | ok codec => exact ⟨fun u h => GoMap.mem_keys_store _ _ _ _ h, fun n h => h⟩
  | handleAliasUpdate message =>
    simp only [LocalRepo.apply, LocalRepo.handleAliasUpdate]
    cases deps.UnmarshalAliasRequest message.Value with
    | error e => exact ⟨fun u h => h, fun n h => h⟩
    | ok request => exact ⟨fun u h => h, fun n h => GoMap.mem_keys_store _ _ _ _ h⟩
  | Decode schema datum =>
    simp only [LocalRepo.apply, Decode_state]
    exact ⟨fun u h => h, fun n h => h⟩
  | Encode schema datum =>
    simp only [LocalRepo.apply, Encode_state]
    exact ⟨fun u h => h, fun n h => h⟩
  | WaitSchemaReady schema =>
    simp only [LocalRepo.apply, WaitSchemaReady_state]
    exact ⟨fun u h => h, fun n h => h⟩
  | WaitAliasReady name =>
    simp only [LocalRepo.apply, WaitAliasReady_state]
    exact ⟨fun u h => h, fun n h => h⟩
  | ListSchemata => exact ⟨fun u h => h, fun n h => h⟩
  | ListAliases => exact ⟨fun u h => h, fun n h => h⟩
  | WhoIs name => exact ⟨fun u h => h, fun n h => h⟩
  | GetSpecification schema =>
    simp only [LocalRepo.apply, GetSpecification_state]
    exact ⟨fun u h => h, fun n h => h⟩
  | Count => exact ⟨fun u h => h, fun n h => h⟩
  | DecodeVersion schema datum =>
    simp only [LocalRepo.apply, DecodeVersion_state]
    exact ⟨fun u h => h, fun n h => h⟩
  | EncodeVersion schema datum =>
    simp only [LocalRepo.apply, EncodeVersion_state]
    exact ⟨fun u h => h, fun n h => h⟩
  | WaitVersionReady schema =>
    simp only [LocalRepo.apply, LocalRepo.WaitVersionReady, WaitAliasReady_state]
    exact ⟨fun u h => h, fun n h => h⟩

theorem run_keeps_keys {Codec Native : Type} (deps : Deps Codec Native) :
    ∀ (ops : List (Op Codec Native)) (repo : LocalRepo Codec),
    (∀ u, u ∈ repo.Schemata.Map.keys → u ∈ (repo.run deps ops).Schemata.Map.keys) ∧
    (∀ name, name ∈ repo.Aliases.Map.keys → name ∈ (repo.run deps ops).Aliases.Map.keys) := by
  intro ops
  induction ops with
  | nil => intro repo; exact ⟨fun u h => h, fun n h => h⟩
  | cons op ops ih =>
    intro repo
    have hstep : repo.run deps (op :: ops) = (repo.apply deps op).run deps ops := rfl
    obtain ⟨h1, h2⟩ := apply_keeps_keys deps repo op
    obtain ⟨h3, h4⟩ := ih (repo.apply deps op)
    rw [hstep]
    exact ⟨fun u h => h3 u (h1 u h), fun n h => h4 n (h2 n h)⟩

/-- C13: monotonic presence.  For every sequence of store operations
(`AliasMap.Insert`, `SchemaMap.Upsert`, `handleSchemaUpdate`,
`handleAliasUpdate` and all read-side operations), a key that is present in a
map after some operations is present after every later operation, and the
lookups `GetSpecification` and `WhoIs` keep reporting it present. -/
theorem monotonic_presence {Codec Native : Type} (deps : Deps Codec Native)
    (repo : LocalRepo Codec) (before later : List (Op Codec Native)) :
    (∀ u, u ∈ (repo.run deps before).Schemata.Map.keys →
      u ∈ (repo.run deps (before ++ later)).Schemata.Map.keys ∧
      ((repo.run deps (before ++ later)).GetSpecification deps u).1.2 = true) ∧
    (∀ name, name ∈ (repo.run deps before).Aliases.Map.keys →
      name ∈ (repo.run deps (before ++ later)).Aliases.Map.keys ∧
      ((repo.run deps (before ++ later)).WhoIs name).1.2 = true) := by
  have happ : repo.run deps (before ++ later) = (repo.run deps before).run deps later := by
    simp [LocalRepo.run, List.foldl_append]
  obtain ⟨h1, h2⟩ := run_keeps_keys deps later (repo.run deps before)
  rw [happ]
  constructor
  · intro u hu
    have hk := h1 u hu
    refine ⟨hk, ?_⟩
    have hsome := (GoMap.find_isSome_iff _ _).mpr hk
    unfold LocalRepo.GetSpecification
    cases hf : ((repo.run deps before).run deps later).Schemata.Map.find u with
    | none => simp [hf] at hsome
    | some c => rfl
  · intro name hn
    have hk := h2 name hn
    refine ⟨hk, ?_⟩
    have hsome := (GoMap.find_isSome_iff _ _).mpr hk
    unfold LocalRepo.WhoIs GoMap.commaOk
    cases hf : ((repo.run deps before).run deps later).Aliases.Map.find name with
    | none => simp [hf] at hsome
    | some c => rfl

theorem monotonic_presence_witness :
    7 ∈ (sampleRepo.run sampleDeps
      ([Op.Count] ++ [Op.handleSchemaUpdate ⟨some [7]⟩, Op.Upsert 7 ['b'], Op.Upsert 8 ['c'],
        Op.DecodeVersion ⟨"foo".toList, 0⟩ none, Op.Insert "foo-v0".toList 9,
        Op.WaitAliasReady "bar".toList])).Schemata.Map.keys ∧
    "foo-v0".toList ∈ (sampleRepo.run sampleDeps
      ([Op.Count] ++ [Op.handleSchemaUpdate ⟨some [7]⟩, Op.Upsert 7 ['b'], Op.Upsert 8 ['c'],
        Op.DecodeVersion ⟨"foo".toList, 0⟩ none, Op.Insert "foo-v0".toList 9,
        Op.WaitAliasReady "bar".toList])).Aliases.Map.keys :=
  ⟨((monotonic_presence sampleDeps sampleRepo [Op.Count]
      [Op.handleSchemaUpdate ⟨some [7]⟩, Op.Upsert 7 ['b'], Op.Upsert 8 ['c'],
        Op.DecodeVersion ⟨"foo".toList, 0⟩ none, Op.Insert "foo-v0".toList 9,
        Op.WaitAliasReady "bar".toList]).1 7 (by decide)).1,
    ((monotonic_presence sampleDeps sampleRepo [Op.Count]
      [Op.handleSchemaUpdate ⟨some [7]⟩, Op.Upsert 7 ['b'], Op.Upsert 8 ['c'],
        Op.DecodeVersion ⟨"foo".toList, 0⟩ none, Op.Insert "foo-v0".toList 9,
        Op.WaitAliasReady "bar".toList]).2 "foo-v0".toList (by decide)).1⟩

/-! ## Neighbouring versions and injectivity of the alias -/

/-- C14: if `v.Version == 0` (the origin, where `IsOrigin()` is true) then
`GetPrevious` returns `v` itself with `ok = false`; otherwise it returns
`NameVersion{v.Name, v.Version - 1}` with `ok = true`.  In both cases `ok` is
true exactly when the returned version differs from `v`. -/
theorem GetPrevious_origin_or_predecessor (bits : Nat) (v : NameVersion)
    (hv : v.Version < 2 ^ bits) :
    (v.Version = 0 → v.IsOrigin = true ∧ v.GetPrevious bits = (v, false)) ∧
    (v.Version ≠ 0 → v.IsOrigin = false ∧
      v.GetPrevious bits = (⟨v.Name, v.Version - 1⟩, true)) ∧
    ((v.GetPrevious bits).2 = true ↔ (v.GetPrevious bits).1 ≠ v) := by
  have hpred : v.Version ≠ 0 → (v.Version + 2 ^ bits - 1) % 2 ^ bits = v.Version - 1 := by
    intro h0
    have h1 : v.Version + 2 ^ bits - 1 = (v.Version - 1) + 2 ^ bits := by omega
    rw [h1, Nat.add_mod_right, Nat.mod_eq_of_lt (by omega)]
  by_cases h0 : v.Version = 0
  · have hprev : v.GetPrevious bits = (v, false) := by
      simp [NameVersion.GetPrevious, h0]
    refine ⟨fun _ => ⟨by simp [NameVersion.IsOrigin, h0], hprev⟩, fun h => absurd h0 h, ?_⟩
    rw [hprev]
    simp
  · have hprev : v.GetPrevious bits = (⟨v.Name, v.Version - 1⟩, true) := by
      simp [NameVersion.GetPrevious, h0, hpred h0]
    refine ⟨fun h => absurd h h0, fun _ => ⟨by simp [NameVersion.IsOrigin, h0], hprev⟩, ?_⟩
    rw [hprev]
    simp only [ne_eq, true_iff]
    intro heq
    have := congrArg NameVersion.Version heq
    simp only at this
    omega

theorem GetPrevious_origin_or_predecessor_witness :
    (NameVersion.mk "mySchema".toList 0).GetPrevious 64 = (⟨"mySchema".toList, 0⟩, false) ∧
    (NameVersion.mk "mySchema".toList 13).GetPrevious 64 = (⟨"mySchema".toList, 12⟩, true) :=
  ⟨((GetPrevious_origin_or_predecessor 64 ⟨"mySchema".toList, 0⟩ (by decide)).1 rfl).2,
    ((GetPrevious_origin_or_predecessor 64 ⟨"mySchema".toList, 13⟩ (by decide)).2.1
      (by decide)).2⟩

/-- C15 fails on the code at the largest `uint`: `v.Version + 1` wraps around,
so `GetNext` returns version 0, the origin, with `ok = true`, not the version
numbered `v.Version + 1`. -/
theorem GetNext_wraps_at_max :
    (NameVersion.mk "foo".toList (2 ^ 64 - 1)).GetNext 64 = (⟨"foo".toList, 0⟩, true) ∧
    (NameVersion.mk "foo".toList (2 ^ 32 - 1)).GetNext 32 = (⟨"foo".toList, 0⟩, true) ∧
    ((NameVersion.mk "foo".toList (2 ^ 64 - 1)).GetNext 64).1.IsOrigin = true ∧
    (NameVersion.mk "foo".toList 13).GetNext 64 = (⟨"foo".toList, 14⟩, true) := by
  decide

theorem append_cons_unique {α : Type} (c : α) : ∀ (a b x y : List α),
    c ∉ a → c ∉ b → a ++ c :: x = b ++ c :: y → a = b ∧ x = y := by
  intro a
  induction a with
  | nil =>
    intro b x y _ hb h
    cases b with
    | nil => simpa using h
    | cons d b =>
      simp only [List.nil_append, List.cons_append, List.cons.injEq] at h
      exact absurd (h.1 ▸ List.mem_cons_self _ _) hb
  | cons e a ih =>
    intro b x y ha hb h
    cases b with
    | nil =>
      simp only [List.nil_append, List.cons_append, List.cons.injEq] at h
      exact absurd (h.1 ▸ List.mem_cons_self _ _) ha
    | cons d b =>
      simp only [List.cons_append, List.cons.injEq] at h
      obtain ⟨hed, hrest⟩ := h
      have ha1 : c ∉ a := fun hm => ha (List.mem_cons_of_mem _ hm)
      have hb1 : c ∉ b := fun hm => hb (List.mem_cons_of_mem _ hm)
      obtain ⟨h1, h2⟩ := ih b x y ha1 hb1 hrest
      exact ⟨by rw [hed, h1], h2⟩

theorem hexNumeral_no_v (n : Nat) : 'v' ∉ hexNumeral n := by
  intro h
  have := hexNumeral_mem n _ h
  revert this
  decide

theorem hexNumeral_injective (m n : Nat) (h : hexNumeral m = hexNumeral n) : m = n := by
  rw [← hexValue_hexNumeral m, ← hexValue_hexNumeral n, h]

/-- C17: `Alias()` is injective on all `NameVersion`s, with no restriction on
`Name`: `v1.Alias() == v2.Alias()` implies `v1.Name == v2.Name` and
`v1.Version == v2.Version`, because the hexadecimal suffix contains neither `-`
nor `v`, so that the last `-v` of the alias is always the separator. -/
theorem Alias_injective (v1 v2 : NameVersion) (h1 : v1.Version < 2 ^ 64)
    (h2 : v2.Version < 2 ^ 64) (h : v1.Alias = v2.Alias) :
    v1.Name = v2.Name ∧ v1.Version = v2.Version ∧ v1 = v2 := by
  have hs : v1.String = v2.String := h
  rw [String_eq_hexNumeral v1 h1, String_eq_hexNumeral v2 h2] at hs
  have hsep : "-v".toList = ['-', 'v'] := rfl
  rw [hsep] at hs
  have hrev := congrArg List.reverse hs
  simp only [List.reverse_append, List.reverse_cons, List.reverse_nil, List.nil_append,
    List.singleton_append, List.cons_append, List.append_assoc] at hrev
  obtain ⟨hh, hn⟩ := append_cons_unique 'v' _ _ _ _
    (by rw [List.mem_reverse]; exact hexNumeral_no_v _)
    (by rw [List.mem_reverse]; exact hexNumeral_no_v _) hrev
  have hnum : hexNumeral v1.Version = hexNumeral v2.Version := List.reverse_injective hh
  have hname : v1.Name = v2.Name := by
    simp only [List.cons.injEq, true_and] at hn
    exact List.reverse_injective hn
  have hver := hexNumeral_injective _ _ hnum
  refine ⟨hname, hver, ?_⟩
  cases v1; cases v2
  simp only at hname hver
  rw [hname, hver]

theorem Alias_injective_witness :
    (NameVersion.mk "my-vschema-v1".toList 10).Name = "my-vschema-v1".toList ∧
    (NameVersion.mk "my-vschema-v1".toList 10).Version = 10 :=
  ⟨(Alias_injective ⟨"my-vschema-v1".toList, 10⟩ ⟨"my-vschema-v1".toList, 10⟩ (by decide)
      (by decide) (by decide)).1,
    (Alias_injective ⟨"my-vschema-v1".toList, 10⟩ ⟨"my-vschema-v1".toList, 10⟩ (by decide)
      (by decide) (by decide)).2.1⟩

end KafkaSchema
